import Mathlib

/-
Verification development for the xv6-labs-2021 buffer cache (kernel/bio.c,
lock-lab version with a 13-bucket hash table over the buffer pool).

The embedding is a sequential shallow embedding of the C code:
  - struct buf becomes the structure Buf; the content field is abstracted
    to a single Nat, the sleep lock to a Bool holder flag.
  - the bucket table becomes a list of lists of slot indices; the intrusive
    next pointers of each bucket chain (head.next, b.next, ...) correspond
    to the order of the index list.
  - unsigned 32-bit arithmetic on refcnt and on the hash product is made
    explicit with reductions modulo 2^32.
  - fatal outcomes (panics and the one null-pointer dereference that the
    slow path of bget can perform) are returned as values of Except.
  - the global tick counter is read-only for this code, so operations that
    read it (binit, brelse) take the current tick value as an argument.
-/

set_option maxRecDepth 100000

namespace Bio

/-- Modulus of the unsigned 32-bit arithmetic used by the C code (uint). -/
def UINTMOD : Nat := 4294967296

/-- Number of buckets, NBUK in bio.c. -/
def NBUK : Nat := 13

/-- Number of buffer slots in the pool, NBUF (30, per the comments of bio.c:
the pool has 30 slots and the last one is buf[29]). -/
def NBUF : Nat := 30

/-- The hash of bio.c: ((dev * blockno) mod 2^32) mod nbuk, where the
multiplication is the uint multiplication of the C source. -/
def bhash (nbuk dev blockno : Nat) : Nat := ((dev * blockno) % UINTMOD) % nbuk

/-- One buffer slot: struct buf. The byte block is abstracted to one Nat
(field data); the sleep lock is the Bool flag slocked (true when some caller
holds the exclusive lock). All fields start at the zero values that the C
global bcache array has before binit runs. -/
structure Buf where
  dev : Nat := 0
  blockno : Nat := 0
  valid : Bool := false
  refcnt : Nat := 0
  timestamp : Nat := 0
  slocked : Bool := false
  data : Nat := 0
deriving DecidableEq

instance : Inhabited Buf := ⟨{}⟩

/-- The cache state: the slot pool (indexed by position) and the bucket
table, each bucket being the list of slot indices on its chain, in chain
order starting at head.next. -/
structure BCache where
  bufs : List Buf
  buckets : List (List Nat)
deriving DecidableEq

instance : Inhabited BCache := ⟨⟨[], []⟩⟩

/-- Fatal outcomes of the modelled operations. -/
inductive BErr where
  /-- Dereference of the null pointer prev_lru_b in the line
  lru_b = prev_lru_b->next of bget. -/
  | nullDeref
  /-- The panic with message bget: no buffers. -/
  | noBuffers
  /-- The panic with message bwrite. -/
  | bwritePanic
  /-- The panic with message brelse. -/
  | brelsePanic
deriving DecidableEq

instance {ε α : Type} [DecidableEq ε] [DecidableEq α] : DecidableEq (Except ε α) :=
  fun x y =>
    match x, y with
    | .ok a, .ok b =>
        if h : a = b then isTrue (by rw [h])
        else isFalse (fun hc => by cases hc; exact h rfl)
    | .error e, .error f =>
        if h : e = f then isTrue (by rw [h])
        else isFalse (fun hc => by cases hc; exact h rfl)
    | .ok _, .error _ => isFalse (fun hc => by cases hc)
    | .error _, .ok _ => isFalse (fun hc => by cases hc)

/-- Read slot i of the pool (default slot when out of range; the C code
never indexes out of range because chains only hold pool pointers). -/
def getBuf (s : BCache) (i : Nat) : Buf := s.bufs.getD i default

/-- Write slot i of the pool. -/
def setBuf (s : BCache) (i : Nat) (b : Buf) : BCache :=
  { s with bufs := s.bufs.set i b }

/-- Read the chain of bucket k. -/
def getBkt (s : BCache) (k : Nat) : List Nat := s.buckets.getD k []

/-- Write the chain of bucket k. -/
def setBkt (s : BCache) (k : Nat) (l : List Nat) : BCache :=
  { s with buckets := s.buckets.set k l }

/-- The uint increment refcnt++ of the C code. -/
def inc32 (r : Nat) : Nat := (r + 1) % UINTMOD

/-- The uint decrement refcnt-- of the C code (wraps at zero). -/
def dec32 (r : Nat) : Nat := (r + (UINTMOD - 1)) % UINTMOD

/-- binit: every slot keeps its zero-initialized identity, validity and
reference count; the timestamp of each slot is set to the current tick
(the C code runs this when ticks is 0); all slots are chained into
bucket 0 in pool order, and the other nbuk - 1 buckets start empty. -/
def binit (nbuk nbuf ticks : Nat) : BCache :=
  { bufs := List.replicate nbuf { timestamp := ticks },
    buckets := List.range nbuf :: List.replicate (nbuk - 1) [] }

/-- The list walk shared by the fast path and the re-scan of bget: the
first slot on chain l whose identity equals (dev, blockno), if any. -/
def findMatch (s : BCache) (l : List Nat) (dev blockno : Nat) : Option Nat :=
  match l with
  | [] => none
  | i :: rest =>
      if (getBuf s i).dev = dev ∧ (getBuf s i).blockno = blockno then some i
      else findMatch s rest dev blockno

/-- The update a slot receives when bget hands it out on a hit:
refcnt++ followed by acquiresleep of its sleep lock. -/
def bumpRef (b : Buf) : Buf := { b with refcnt := inc32 b.refcnt, slocked := true }

/-- Fast path of bget: scan the home bucket of (dev, blockno) for a slot
already holding that identity; on a hit, increment its reference count and
acquire its sleep lock. -/
def bgetFast (s : BCache) (dev blockno : Nat) : Option (BCache × Nat) :=
  match findMatch s (getBkt s (bhash s.buckets.length dev blockno)) dev blockno with
  | some i => some (setBuf s i (bumpRef (getBuf s i)), i)
  | none => none

/-- Inner loop of the eviction scan, one bucket chain: walk the chain
keeping the running maximum timestamp; every entry with refcnt == 0 and
timestamp >= max replaces the remembered candidate (so the last qualifying
entry of the chain wins). Returns the new maximum and the chain position of
the last replacement performed inside this chain, if any (this mirrors
is_better and prev_lru_b of the C loop; pos is the position that
prev_lru_b->next designates). -/
def scanBucket (s : BCache) (l : List Nat) (pos maxTs : Nat) (best : Option Nat) :
    Nat × Option Nat :=
  match l with
  | [] => (maxTs, best)
  | i :: rest =>
      if (getBuf s i).refcnt = 0 ∧ maxTs ≤ (getBuf s i).timestamp then
        scanBucket s rest (pos + 1) (getBuf s i).timestamp (some pos)
      else
        scanBucket s rest (pos + 1) maxTs best

/-- Which bucket locks the scan holds, given the current best candidate:
exactly the lock of the bucket owning the candidate. -/
def toHeld : Option (Nat × Nat) → List Nat
  | none => []
  | some cp => [cp.1]

/-- Release of the previously held best-bucket lock (the C line
release of the lock of lru_buk_id when lru_buk_id is not -1):
drop the old best bucket from the held set, if a best exists. -/
def releaseBest (held : List Nat) (best : Option (Nat × Nat)) : List Nat :=
  match best with
  | some cp => held.filter (fun x => x != cp.1)
  | none => held

/-- Outer loop of the eviction scan over the buckets, carrying the running
maximum, the best candidate as (bucket, chain position), and the list of
bucket locks currently held: entering bucket k acquires its lock; if the
bucket improved the candidate the previously held best-bucket lock is
released and the lock of k is kept, otherwise the lock of k is released. -/
def scanGo (s : BCache) (bks : List (List Nat)) (k ts : Nat)
    (best : Option (Nat × Nat)) (held : List Nat) :
    Nat × Option (Nat × Nat) × List Nat :=
  match bks with
  | [] => (ts, best, held)
  | l :: rest =>
      match scanBucket s l 0 ts none with
      | (ts1, some p) =>
          scanGo s rest (k + 1) ts1 (some (k, p)) (releaseBest (held ++ [k]) best)
      | (ts1, none) =>
          scanGo s rest (k + 1) ts1 best ((held ++ [k]).filter (fun x => x != k))

/-- The whole eviction scan of bget over all buckets. -/
def scanAll (s : BCache) : Nat × Option (Nat × Nat) × List Nat :=
  scanGo s s.buckets 0 0 none []

/-- Steal and migrate: unlink the victim at chain position p of bucket c
and link it at the head of the home bucket of (dev, blockno). This is the
state in which the C code performs its duplicate re-scan. -/
def stealLink (s : BCache) (c p dev blockno : Nat) : BCache :=
  let h := bhash s.buckets.length dev blockno
  let v := (getBkt s c).getD p 0
  let s1 := setBkt s c ((getBkt s c).eraseIdx p)
  setBkt s1 h (v :: getBkt s1 h)

/-- Slow path of bget (cache miss): run the eviction scan; the C code then
executes lru_b = prev_lru_b->next, which dereferences the null pointer
prev_lru_b whenever the scan found no candidate (so the later check
if (lru_b == 0) panic with message bget: no buffers is unreachable once
this dereference is made explicit; theorem C4 below makes this precise).
With a candidate (c, p): unlink it, link it at the head of the home
bucket, re-scan that bucket for a duplicate of (dev, blockno); on a
duplicate hit return the duplicate with refcnt incremented, leaving the
migrated victim in place with its old identity; otherwise reassign the
victim to (dev, blockno) with valid false and refcnt 1. -/
def bgetSlow (s : BCache) (dev blockno : Nat) : Except BErr (BCache × Nat) :=
  let h := bhash s.buckets.length dev blockno
  match (scanAll s).2.1 with
  | none => .error .nullDeref
  | some cp =>
      let v := (getBkt s cp.1).getD cp.2 0
      let s2 := stealLink s cp.1 cp.2 dev blockno
      match findMatch s2 (getBkt s2 h) dev blockno with
      | some x => .ok (setBuf s2 x (bumpRef (getBuf s2 x)), x)
      | none =>
          .ok (setBuf s2 v { getBuf s2 v with
                              dev := dev, blockno := blockno,
                              valid := false, refcnt := 1, slocked := true }, v)

/-- bget: fast-path lookup in the home bucket, else the slow path. -/
def bget (s : BCache) (dev blockno : Nat) : Except BErr (BCache × Nat) :=
  match bgetFast s dev blockno with
  | some r => .ok r
  | none => bgetSlow s dev blockno

/-- bread: bget, then, when the returned slot is not valid, one synchronous
physical read of the block content (the argument val stands for the content
that virtio_disk_rw delivers), setting valid. The third component counts
the physical reads performed (0 or 1). -/
def bread (s : BCache) (dev blockno val : Nat) : Except BErr (BCache × Nat × Nat) :=
  match bget s dev blockno with
  | .error e => .error e
  | .ok (s1, i) =>
      if (getBuf s1 i).valid then .ok (s1, i, 0)
      else .ok (setBuf s1 i { getBuf s1 i with data := val, valid := true }, i, 1)

/-- bwrite: panic unless the caller holds the sleep lock of the slot;
otherwise issue the synchronous physical write, returned as the
(dev, blockno, data) triple handed to virtio_disk_rw. -/
def bwrite (s : BCache) (i : Nat) : Except BErr (Nat × Nat × Nat) :=
  if (getBuf s i).slocked then
    .ok ((getBuf s i).dev, (getBuf s i).blockno, (getBuf s i).data)
  else .error .bwritePanic

/-- brelse: panic unless the caller holds the sleep lock; otherwise release
the sleep lock, decrement refcnt (uint decrement), and when it reaches 0
record the current tick in the timestamp. -/
def brelse (s : BCache) (i ticks : Nat) : Except BErr BCache :=
  if (getBuf s i).slocked then
    let b1 := { getBuf s i with slocked := false }
    let r := dec32 b1.refcnt
    if r = 0 then .ok (setBuf s i { b1 with refcnt := r, timestamp := ticks })
    else .ok (setBuf s i { b1 with refcnt := r })
  else .error .brelsePanic

/-- bpin: increment refcnt under the bucket lock. -/
def bpin (s : BCache) (i : Nat) : BCache :=
  setBuf s i { getBuf s i with refcnt := inc32 (getBuf s i).refcnt }

/-- bunpin: decrement refcnt under the bucket lock; the timestamp is not
touched. -/
def bunpin (s : BCache) (i : Nat) : BCache :=
  setBuf s i { getBuf s i with refcnt := dec32 (getBuf s i).refcnt }

/-- The slot identity (device number, block number). -/
def idOf (b : Buf) : Nat × Nat := (b.dev, b.blockno)

/-- Run a sequence of bget calls (acquire calls), stopping at the first
fatal outcome. -/
def runGets (s : BCache) : List (Nat × Nat) → Except BErr BCache
  | [] => .ok s
  | r :: rest =>
      match bget s r.1 r.2 with
      | .error e => .error e
      | .ok p => runGets p.1 rest

/-- One call of the public interface, for whole-trace statements. The rel,
pin and unpin calls name a slot by pool index (standing for the buffer
pointer the caller holds); rel carries the tick value current at that call,
read carries the content the disk delivers. -/
inductive Op where
  | get (dev blockno : Nat)
  | read (dev blockno val : Nat)
  | rel (i ticks : Nat)
  | pin (i : Nat)
  | unpin (i : Nat)
deriving DecidableEq

/-- Step one operation. -/
def stepOp (s : BCache) : Op → Except BErr BCache
  | .get d b =>
      match bget s d b with
      | .error e => .error e
      | .ok p => .ok p.1
  | .read d b val =>
      match bread s d b val with
      | .error e => .error e
      | .ok p => .ok p.1
  | .rel i t => brelse s i t
  | .pin i => .ok (bpin s i)
  | .unpin i => .ok (bunpin s i)

/-- Run a sequence of operations. -/
def runOps (s : BCache) : List Op → Except BErr BCache
  | [] => .ok s
  | op :: rest =>
      match stepOp s op with
      | .error e => .error e
      | .ok s1 => runOps s1 rest

/-- Extract the state of a successful bget-shaped result (default state on
error; the theorems always pin the successful shape explicitly). -/
def okSt (e : Except BErr (BCache × Nat)) : BCache :=
  match e with
  | .ok p => p.1
  | .error _ => default

/-- Extract the state of a successful brelse result. -/
def okRel (e : Except BErr BCache) : BCache :=
  match e with
  | .ok s => s
  | .error _ => default

/- Scenario of spec section 8.6: pool of 2 slots, a single bucket. -/

/-- Scenario state after acquire(1,10); the returned slot (A) is slot 1. -/
def c1s1 : BCache := okSt (bget (binit 1 2 0) 1 10)

/-- Scenario state after acquire(1,20); the returned slot (B) is slot 0. -/
def c1s2 : BCache := okSt (bget c1s1 1 20)

/-- Scenario state after release(A) at tick 1. -/
def c1s3 : BCache := okRel (brelse c1s2 1 1)

/-- Scenario state after release(B) at tick 2. -/
def c1s4 : BCache := okRel (brelse c1s3 0 2)

/-- Scenario state after the final acquire(1,30). -/
def c1s5 : BCache := okSt (bget c1s4 1 30)

/-- C1, counterexample. In the concrete scenario of spec section 8.6
(capacity 2, one bucket), acquire(1,10) returns slot 1 (A) and
acquire(1,20) returns slot 0 (B); after release(A) at tick 1 and
release(B) at tick 2 the release stamps are A = 1, B = 2. The claim says
acquire(1,30) evicts A, the slot with the earlier release stamp. The code
does the opposite: the eviction scan keeps the candidate with the largest
timestamp, so acquire(1,30) returns slot 0 (B, stamp 2), reassigning it to
identity (1,30), while A keeps its identity (1,10) and its stamp. -/
theorem C1_counterexample :
    bget (binit 1 2 0) 1 10 = .ok (c1s1, 1) ∧
    bget c1s1 1 20 = .ok (c1s2, 0) ∧
    brelse c1s2 1 1 = .ok c1s3 ∧
    brelse c1s3 0 2 = .ok c1s4 ∧
    (getBuf c1s4 1).timestamp = 1 ∧
    (getBuf c1s4 0).timestamp = 2 ∧
    bget c1s4 1 30 = .ok (c1s5, 0) ∧
    idOf (getBuf c1s5 1) = (1, 10) ∧
    (getBuf c1s5 1).timestamp = 1 ∧
    idOf (getBuf c1s5 0) = (1, 30) := by decide

/-- C1, amended. In the scenario of spec section 8.6, acquire(1,30) evicts
whichever of A/B has the LATER release stamp (that is B, slot 0, stamp 2,
against stamp 1 of A), reusing its storage with the new identity (1,30),
valid false and refcnt 1. -/
theorem C1_amended_scenario :
    bget c1s4 1 30 = .ok (c1s5, 0) ∧
    (getBuf c1s4 0).refcnt = 0 ∧
    (getBuf c1s4 1).refcnt = 0 ∧
    (getBuf c1s4 1).timestamp < (getBuf c1s4 0).timestamp ∧
    idOf (getBuf c1s5 0) = (1, 30) ∧
    (getBuf c1s5 0).valid = false ∧
    (getBuf c1s5 0).refcnt = 1 := by decide

/- Trace refuting claim C3: a refcnt transition to 0 through bunpin. -/

/-- Trace state: acquire(1,10) on a 2-slot one-bucket pool hands out
slot 1 with refcnt 1. -/
def c3s1 : BCache := okSt (bget (binit 1 2 0) 1 10)

/-- Trace state: the caller pins the slot, refcnt 2. -/
def c3s2 : BCache := bpin c3s1 1

/-- Trace state: release at tick 5; refcnt drops to 1, no stamp. -/
def c3s3 : BCache := okRel (brelse c3s2 1 5)

/-- Trace state: unpin; refcnt drops from 1 to 0. -/
def c3s4 : BCache := bunpin c3s3 1

/-- C3, counterexample. After acquire, pin, release at tick 5 and unpin,
slot 1 has refcnt 0 and its last transition to 0 was performed by bunpin,
at a moment when the tick counter was at least 5 (the release already
observed tick 5 and the counter is monotone). Yet its recency stamp is
still 0, the binit value: bunpin left the stamp untouched, so the stamp
does not equal the tick at the moment refcnt last transitioned to 0. -/
theorem C3_counterexample :
    bget (binit 1 2 0) 1 10 = .ok (c3s1, 1) ∧
    brelse c3s2 1 5 = .ok c3s3 ∧
    (getBuf c3s3 1).refcnt = 1 ∧
    (getBuf c3s4 1).refcnt = 0 ∧
    (getBuf c3s4 1).timestamp = (getBuf c3s3 1).timestamp ∧
    (getBuf c3s4 1).timestamp = 0 ∧
    ¬ 5 ≤ (getBuf c3s4 1).timestamp := by decide

/-- C10. binit never writes device number, block number, validity or
reference count: for every initial tick value the pool is exactly nbuf
copies of the zero slot with only the timestamp set, all chained into
bucket 0 (and hash 13 0 0 = 0, so they sit in the home bucket of identity
(0, 0)). Consequently the first bget(0,0) is a fast-path hit on slot 0,
the first of these never-populated slots: it returns slot 0 with refcnt 1,
valid still false, the bucket table unchanged (no eviction scan ran), and
the other 29 slots keep their duplicate identity (0,0), none filtered. -/
theorem C10_binit_fastpath :
    (∀ t, (binit 13 30 t).bufs = List.replicate 30 { timestamp := t }) ∧
    bhash 13 0 0 = 0 ∧
    (binit 13 30 0).buckets = List.range 30 :: List.replicate 12 [] ∧
    bgetFast (binit 13 30 0) 0 0 =
      some (setBuf (binit 13 30 0) 0 { timestamp := 0, refcnt := 1, slocked := true }, 0) ∧
    bget (binit 13 30 0) 0 0 =
      .ok (setBuf (binit 13 30 0) 0 { timestamp := 0, refcnt := 1, slocked := true }, 0) ∧
    (setBuf (binit 13 30 0) 0 { timestamp := 0, refcnt := 1, slocked := true }).buckets =
      (binit 13 30 0).buckets ∧
    (getBuf (setBuf (binit 13 30 0) 0 { timestamp := 0, refcnt := 1, slocked := true }) 0).valid
      = false ∧
    (setBuf (binit 13 30 0) 0 { timestamp := 0, refcnt := 1, slocked := true }).bufs.drop 1 =
      List.replicate 29 { timestamp := 0 } :=
  ⟨fun _ => rfl, by decide, by decide, by decide, by decide, by decide, by decide, by decide⟩

/- Specification of the eviction scan. -/

/-- Specification of the inner scan loop on one bucket chain: the running
maximum never decreases; the returned candidate is either the incoming one
(with the maximum unchanged) or the position of a chain entry with
refcnt 0 whose timestamp is the returned maximum; every refcnt 0 entry of
the chain has timestamp at most the returned maximum, and an entry
attaining it forces the returned candidate to sit at or after it; and when
no candidate is returned every refcnt 0 entry is strictly below the
incoming maximum. -/
theorem scanBucket_spec (s : BCache) :
    ∀ (l : List Nat) (pos ts : Nat) (b : Option Nat) (ts2 : Nat) (loc : Option Nat),
      scanBucket s l pos ts b = (ts2, loc) →
      ts ≤ ts2 ∧
      ((loc = b ∧ ts2 = ts) ∨
        ∃ j, j < l.length ∧ loc = some (pos + j) ∧
          (getBuf s (l.getD j 0)).refcnt = 0 ∧ (getBuf s (l.getD j 0)).timestamp = ts2) ∧
      (∀ j, j < l.length → (getBuf s (l.getD j 0)).refcnt = 0 →
        (getBuf s (l.getD j 0)).timestamp ≤ ts2 ∧
        ((getBuf s (l.getD j 0)).timestamp = ts2 → ∃ q, loc = some q ∧ pos + j ≤ q)) ∧
      (loc = none → ∀ j, j < l.length → (getBuf s (l.getD j 0)).refcnt = 0 →
        (getBuf s (l.getD j 0)).timestamp < ts) := by
  intro l
  induction l with
  | nil =>
      intro pos ts b ts2 loc h
      rw [scanBucket] at h
      cases h
      refine ⟨Nat.le_refl _, Or.inl ⟨rfl, rfl⟩, ?_, ?_⟩
      · intro j hj
        exact absurd hj (by simp)
      · intro _ j hj
        exact absurd hj (by simp)
  | cons i rest ih =>
      intro pos ts b ts2 loc h
      rw [scanBucket] at h
      by_cases hc : (getBuf s i).refcnt = 0 ∧ ts ≤ (getBuf s i).timestamp
      · rw [if_pos hc] at h
        obtain ⟨ih1, ih2, ih3, _ih4⟩ :=
          ih (pos + 1) (getBuf s i).timestamp (some pos) ts2 loc h
        refine ⟨Nat.le_trans hc.2 ih1, ?_, ?_, ?_⟩
        · rcases ih2 with ⟨hl, hts⟩ | ⟨j, hj, hloc, hcand, hts⟩
          · exact Or.inr ⟨0, by simp, by simpa using hl, by simpa using hc.1,
              by simpa using hts.symm ▸ rfl⟩
          · exact Or.inr ⟨j + 1, by simpa using hj, by rw [hloc]; exact congrArg some (by omega),
              by simpa using hcand, by simpa using hts⟩
        · intro j hj hcand
          cases j with
          | zero =>
              simp only [List.getD_cons_zero] at hcand ⊢
              refine ⟨ih1, fun heq => ?_⟩
              rcases ih2 with ⟨hl, _⟩ | ⟨j', _, hloc, _, _⟩
              · exact ⟨pos, hl, Nat.le_refl _⟩
              · exact ⟨pos + 1 + j', hloc, by omega⟩
          | succ j' =>
              simp only [List.getD_cons_succ] at hcand ⊢
              obtain ⟨hle, heq⟩ := ih3 j' (by simpa using hj) hcand
              refine ⟨hle, fun h2 => ?_⟩
              obtain ⟨q, hq, hpq⟩ := heq h2
              exact ⟨q, hq, by omega⟩
        · intro hnone
          rcases ih2 with ⟨hl, _⟩ | ⟨j', _, hloc, _, _⟩
          · exact absurd (hnone ▸ hl) (by simp)
          · exact absurd (hnone ▸ hloc) (by simp)
      · rw [if_neg hc] at h
        obtain ⟨ih1, ih2, ih3, ih4⟩ := ih (pos + 1) ts b ts2 loc h
        refine ⟨ih1, ?_, ?_, ?_⟩
        · rcases ih2 with ⟨hl, hts⟩ | ⟨j, hj, hloc, hcand, hts⟩
          · exact Or.inl ⟨hl, hts⟩
          · exact Or.inr ⟨j + 1, by simpa using hj, by rw [hloc]; exact congrArg some (by omega),
              by simpa using hcand, by simpa using hts⟩
        · intro j hj hcand
          cases j with
          | zero =>
              simp only [List.getD_cons_zero] at hcand ⊢
              have hlt : (getBuf s i).timestamp < ts := by
                rcases Nat.lt_or_ge (getBuf s i).timestamp ts with h1 | h1
                · exact h1
                · exact absurd ⟨hcand, h1⟩ hc
              exact ⟨Nat.le_trans (Nat.le_of_lt hlt) ih1, fun heq => absurd heq (by omega)⟩
          | succ j' =>
              simp only [List.getD_cons_succ] at hcand ⊢
              obtain ⟨hle, heq⟩ := ih3 j' (by simpa using hj) hcand
              refine ⟨hle, fun h2 => ?_⟩
              obtain ⟨q, hq, hpq⟩ := heq h2
              exact ⟨q, hq, by omega⟩
        · intro hnone j hj hcand
          cases j with
          | zero =>
              simp only [List.getD_cons_zero] at hcand ⊢
              rcases Nat.lt_or_ge (getBuf s i).timestamp ts with h1 | h1
              · exact h1
              · exact absurd ⟨hcand, h1⟩ hc
          | succ j' =>
              simpa using ih4 hnone j' (by simpa using hj) (by simpa using hcand)

/-- Specification of the outer scan loop: the running maximum never
decreases; the held lock list tracks the bucket of the best candidate; the
candidate bucket index stays below the range scanned; the returned
candidate is either the incoming one or a chain position with refcnt 0
whose timestamp is the returned maximum; every refcnt 0 entry of the
scanned buckets is bounded by the returned maximum, an entry attaining it
lying at or before the returned candidate in scan order; and a scan that
returns no candidate saw no refcnt 0 entry at or above the incoming
maximum. -/
theorem scanGo_spec (s : BCache) :
    ∀ (bks : List (List Nat)) (k ts : Nat) (B : Option (Nat × Nat)) (held : List Nat)
      (ts2 : Nat) (B2 : Option (Nat × Nat)) (held2 : List Nat),
      scanGo s bks k ts B held = (ts2, B2, held2) →
      held = toHeld B →
      (∀ cp, B = some cp → cp.1 < k) →
      ts ≤ ts2 ∧
      held2 = toHeld B2 ∧
      (∀ cp, B2 = some cp → cp.1 < k + bks.length) ∧
      ((B2 = B ∧ ts2 = ts) ∨
        ∃ j p, j < bks.length ∧ B2 = some (k + j, p) ∧
          p < (bks.getD j []).length ∧
          (getBuf s ((bks.getD j []).getD p 0)).refcnt = 0 ∧
          (getBuf s ((bks.getD j []).getD p 0)).timestamp = ts2) ∧
      (∀ j q, j < bks.length → q < (bks.getD j []).length →
        (getBuf s ((bks.getD j []).getD q 0)).refcnt = 0 →
        (getBuf s ((bks.getD j []).getD q 0)).timestamp ≤ ts2 ∧
        ((getBuf s ((bks.getD j []).getD q 0)).timestamp = ts2 →
          ∃ c p, B2 = some (c, p) ∧ (k + j < c ∨ (k + j = c ∧ q ≤ p)))) ∧
      (B2 = none → ∀ j q, j < bks.length → q < (bks.getD j []).length →
        (getBuf s ((bks.getD j []).getD q 0)).refcnt = 0 →
        (getBuf s ((bks.getD j []).getD q 0)).timestamp < ts) := by
  intro bks
  induction bks with
  | nil =>
      intro k ts B held ts2 B2 held2 h hheld hlt
      rw [scanGo] at h
      cases h
      refine ⟨Nat.le_refl _, hheld, ?_, Or.inl ⟨rfl, rfl⟩, ?_, ?_⟩
      · intro cp hcp
        have := hlt cp hcp
        omega
      · intro j q hj
        exact absurd hj (by simp)
      · intro _ j q hj
        exact absurd hj (by simp)
  | cons l rest ih =>
      intro k ts B held ts2 B2 held2 h hheld hlt
      rcases hsb : scanBucket s l 0 ts none with ⟨ts1, loc⟩
      obtain ⟨sb1, sb2, sb3, sb4⟩ := scanBucket_spec s l 0 ts none ts1 loc hsb
      rw [scanGo, hsb] at h
      cases loc with
      | some p =>
          have hp : p < l.length ∧ (getBuf s (l.getD p 0)).refcnt = 0 ∧
              (getBuf s (l.getD p 0)).timestamp = ts1 := by
            rcases sb2 with ⟨hl, _⟩ | ⟨j, hj, hloc, hcand, hts⟩
            · exact absurd hl (by simp)
            · have hpj : p = j := by
                have := hloc
                simp only [Option.some.injEq] at this
                omega
              subst hpj
              exact ⟨hj, hcand, hts⟩
          have hrel : releaseBest (held ++ [k]) B = [k] := by
            cases hB : B with
            | none => rw [hheld, hB]; simp [toHeld, releaseBest]
            | some cp =>
                have hck : cp.1 < k := hlt cp hB
                rw [hheld, hB]
                have h1 : (cp.1 != cp.1) = false := by simp
                have h2 : (k != cp.1) = true := by simp; omega
                simp [toHeld, releaseBest, List.filter, h1, h2]
          obtain ⟨ih1, ih2, ih3, ih4, ih5, _ih6⟩ :=
            ih (k + 1) ts1 (some (k, p)) (releaseBest (held ++ [k]) B) ts2 B2 held2 h
              (by rw [hrel]; rfl)
              (by intro cp hcp; cases hcp; exact Nat.lt_succ_self k)
          refine ⟨Nat.le_trans sb1 ih1, ih2, ?_, ?_, ?_, ?_⟩
          · intro cp hcp
            have := ih3 cp hcp
            simp only [List.length_cons]
            omega
          · rcases ih4 with ⟨hB, hts⟩ | ⟨j, p', hj, hB, hplen, hcand, hts⟩
            · refine Or.inr ⟨0, p, by simp, ?_, ?_, ?_, ?_⟩
              · rw [hB]; exact congrArg some (by rw [Nat.add_zero])
              · simp only [List.getD_cons_zero]; exact hp.1
              · simp only [List.getD_cons_zero]; exact hp.2.1
              · simp only [List.getD_cons_zero]; rw [hts]; exact hp.2.2
            · refine Or.inr ⟨j + 1, p',
                by simp only [List.length_cons]; omega,
                ?_,
                by simp only [List.getD_cons_succ]; exact hplen,
                by simp only [List.getD_cons_succ]; exact hcand,
                by simp only [List.getD_cons_succ]; exact hts⟩
              rw [hB]; exact congrArg (fun n => some (n, p')) (by omega)
          · intro j q hj hq hcand
            cases j with
            | zero =>
                simp only [List.getD_cons_zero] at hq hcand ⊢
                obtain ⟨hle, heq⟩ := sb3 q hq hcand
                refine ⟨Nat.le_trans hle ih1, fun h2 => ?_⟩
                rcases ih4 with ⟨hB, hts⟩ | ⟨j', p', _, hB, _, _, _⟩
                · obtain ⟨q', hq', hqq⟩ := heq (by omega)
                  have hq'p : q' = p := by
                    simp only [Option.some.injEq] at hq'
                    omega
                  exact ⟨k, p, hB, Or.inr ⟨by omega, by omega⟩⟩
                · exact ⟨k + 1 + j', p', hB, Or.inl (by omega)⟩
            | succ j' =>
                simp only [List.getD_cons_succ] at hq hcand ⊢
                obtain ⟨hle, heq⟩ :=
                  ih5 j' q (by simp only [List.length_cons] at hj; omega) hq hcand
                refine ⟨hle, fun h2 => ?_⟩
                obtain ⟨c, p', hB, hlex⟩ := heq h2
                exact ⟨c, p', hB, by omega⟩
          · intro hnone
            rcases ih4 with ⟨hB, _⟩ | ⟨j', p', _, hB, _, _, _⟩
            · exact absurd (hnone ▸ hB) (by simp)
            · exact absurd (hnone ▸ hB) (by simp)
      | none =>
          have hts1 : ts1 = ts := by
            rcases sb2 with ⟨_, hts⟩ | ⟨j, _, hloc, _, _⟩
            · exact hts
            · exact absurd hloc (by simp)
          have hfil : (held ++ [k]).filter (fun x => x != k) = held := by
            cases hB : B with
            | none => rw [hheld, hB]; simp [toHeld]
            | some cp =>
                have hck : cp.1 < k := hlt cp hB
                rw [hheld, hB]
                have h1 : (k != k) = false := by simp
                have h2 : (cp.1 != k) = true := by simp; omega
                simp [toHeld, List.filter, h1, h2]
          obtain ⟨ih1, ih2, ih3, ih4, ih5, ih6⟩ :=
            ih (k + 1) ts1 B ((held ++ [k]).filter (fun x => x != k)) ts2 B2 held2 h
              (by rw [hfil, hheld])
              (by intro cp hcp; have := hlt cp hcp; omega)
          have hts' : ts ≤ ts2 := by rw [← hts1]; exact ih1
          refine ⟨hts', ih2, ?_, ?_, ?_, ?_⟩
          · intro cp hcp
            have := ih3 cp hcp
            simp only [List.length_cons]
            omega
          · rcases ih4 with ⟨hB, hts⟩ | ⟨j, p', hj, hB, hplen, hcand, hts⟩
            · exact Or.inl ⟨hB, by omega⟩
            · refine Or.inr ⟨j + 1, p',
                by simp only [List.length_cons]; omega,
                ?_,
                by simp only [List.getD_cons_succ]; exact hplen,
                by simp only [List.getD_cons_succ]; exact hcand,
                by simp only [List.getD_cons_succ]; exact hts⟩
              rw [hB]; exact congrArg (fun n => some (n, p')) (by omega)
          · intro j q hj hq hcand
            cases j with
            | zero =>
                simp only [List.getD_cons_zero] at hq hcand ⊢
                have hlt2 : (getBuf s (l.getD q 0)).timestamp < ts := sb4 rfl q hq hcand
                exact ⟨by omega, fun h2 => absurd h2 (by omega)⟩
            | succ j' =>
                simp only [List.getD_cons_succ] at hq hcand ⊢
                obtain ⟨hle, heq⟩ :=
                  ih5 j' q (by simp only [List.length_cons] at hj; omega) hq hcand
                refine ⟨hle, fun h2 => ?_⟩
                obtain ⟨c, p', hB, hlex⟩ := heq h2
                exact ⟨c, p', hB, by omega⟩
          · intro hnone j q hj hq hcand
            cases j with
            | zero =>
                simp only [List.getD_cons_zero] at hq hcand ⊢
                exact sb4 rfl q hq hcand
            | succ j' =>
                simp only [List.getD_cons_succ] at hq hcand ⊢
                have := ih6 hnone j' q (by simp only [List.length_cons] at hj; omega) hq hcand
                omega

/-- When the scan of bget returns a candidate (c, p), that is a real chain
position of bucket c, the slot there has refcnt 0 and its timestamp is the
returned maximum, and the scan ends holding exactly the lock of bucket c. -/
theorem scanAll_some (s : BCache) {c p : Nat}
    (h : (scanAll s).2.1 = some (c, p)) :
    c < s.buckets.length ∧ p < (getBkt s c).length ∧
    (getBuf s ((getBkt s c).getD p 0)).refcnt = 0 ∧
    (getBuf s ((getBkt s c).getD p 0)).timestamp = (scanAll s).1 ∧
    (scanAll s).2.2 = [c] := by
  obtain ⟨_, h2, _, h4, _, _⟩ :=
    scanGo_spec s s.buckets 0 0 none [] (scanAll s).1 (scanAll s).2.1 (scanAll s).2.2
      rfl rfl (by intro cp hcp; cases hcp)
  rcases h4 with ⟨hB, _⟩ | ⟨j, p', hj, hB, hplen, hcand, hts⟩
  · rw [h] at hB
    exact Option.noConfusion hB
  · rw [h] at hB
    have hjc : j = c ∧ p' = p := by
      simp only [Option.some.injEq, Prod.mk.injEq] at hB
      omega
    obtain ⟨hjc1, hjc2⟩ := hjc
    subst hjc1; subst hjc2
    refine ⟨hj, hplen, hcand, hts, ?_⟩
    rw [h2, h, toHeld]

/-- Every refcnt 0 entry of any bucket chain is bounded by the maximum the
scan returns, and one attaining the maximum lies at or before the returned
candidate in scan order (so the returned candidate is the last entry, in
scan order, attaining the maximal timestamp). -/
theorem scanAll_max (s : BCache) {c p : Nat}
    (h : (scanAll s).2.1 = some (c, p)) :
    ∀ k q, k < s.buckets.length → q < (getBkt s k).length →
      (getBuf s ((getBkt s k).getD q 0)).refcnt = 0 →
      (getBuf s ((getBkt s k).getD q 0)).timestamp ≤ (scanAll s).1 ∧
      ((getBuf s ((getBkt s k).getD q 0)).timestamp = (scanAll s).1 →
        k < c ∨ (k = c ∧ q ≤ p)) := by
  obtain ⟨_, _, _, _, h5, _⟩ :=
    scanGo_spec s s.buckets 0 0 none [] (scanAll s).1 (scanAll s).2.1 (scanAll s).2.2
      rfl rfl (by intro cp hcp; cases hcp)
  intro k q hk hq hcand
  obtain ⟨hle, heq⟩ := h5 k q hk hq hcand
  refine ⟨hle, fun h2 => ?_⟩
  obtain ⟨c', p', hB, hlex⟩ := heq h2
  rw [h] at hB
  have : c' = c ∧ p' = p := by
    simp only [Option.some.injEq, Prod.mk.injEq] at hB
    omega
  omega

/-- When the scan of bget returns no candidate, no lock is held at the end
and no entry of any bucket chain has refcnt 0. -/
theorem scanAll_none (s : BCache) (h : (scanAll s).2.1 = none) :
    (scanAll s).2.2 = [] ∧
    ∀ k q, k < s.buckets.length → q < (getBkt s k).length →
      (getBuf s ((getBkt s k).getD q 0)).refcnt ≠ 0 := by
  obtain ⟨_, h2, _, _, _, h6⟩ :=
    scanGo_spec s s.buckets 0 0 none [] (scanAll s).1 (scanAll s).2.1 (scanAll s).2.2
      rfl rfl (by intro cp hcp; cases hcp)
  refine ⟨by rw [h2, h, toHeld], ?_⟩
  intro k q hk hq hcand
  have := h6 h k q hk hq hcand
  omega

/- Small state access lemmas. -/

theorem getD_set_self {α : Type} (d : α) (l : List α) (i : Nat) (b : α)
    (h : i < l.length) : (l.set i b).getD i d = b := by
  rw [List.getD_eq_getElem _ _ (by rw [List.length_set]; exact h)]
  exact List.getElem_set_self _

theorem getD_set_ne {α : Type} (d : α) (l : List α) {i x : Nat} (b : α) (h : i ≠ x) :
    (l.set i b).getD x d = l.getD x d := by
  by_cases hx : x < l.length
  · rw [List.getD_eq_getElem _ _ (by rw [List.length_set]; exact hx),
      List.getD_eq_getElem _ _ hx]
    exact List.getElem_set_ne h _
  · rw [List.getD_eq_default _ _ (by rw [List.length_set]; omega),
      List.getD_eq_default _ _ (by omega)]

theorem getD_mem {l : List Nat} {p : Nat} (h : p < l.length) : l.getD p 0 ∈ l := by
  rw [List.getD_eq_getElem _ _ h]
  exact List.getElem_mem h

theorem getBuf_setBuf_self {s : BCache} {i : Nat} (b : Buf) (h : i < s.bufs.length) :
    getBuf (setBuf s i b) i = b := getD_set_self _ _ _ _ h

theorem getBuf_setBuf_ne (s : BCache) {i x : Nat} (b : Buf) (h : i ≠ x) :
    getBuf (setBuf s i b) x = getBuf s x := getD_set_ne _ _ _ h

theorem buckets_setBuf (s : BCache) (i : Nat) (b : Buf) :
    (setBuf s i b).buckets = s.buckets := rfl

theorem getBkt_setBuf (s : BCache) (i : Nat) (b : Buf) (k : Nat) :
    getBkt (setBuf s i b) k = getBkt s k := rfl

theorem bufsLen_setBuf (s : BCache) (i : Nat) (b : Buf) :
    (setBuf s i b).bufs.length = s.bufs.length := List.length_set _ _ _

theorem bufs_setBkt (s : BCache) (k : Nat) (l : List Nat) :
    (setBkt s k l).bufs = s.bufs := rfl

theorem getBuf_setBkt (s : BCache) (k : Nat) (l : List Nat) (i : Nat) :
    getBuf (setBkt s k l) i = getBuf s i := rfl

theorem bucketsLen_setBkt (s : BCache) (k : Nat) (l : List Nat) :
    (setBkt s k l).buckets.length = s.buckets.length := List.length_set _ _ _

theorem getBkt_setBkt_self {s : BCache} {k : Nat} (l : List Nat)
    (h : k < s.buckets.length) : getBkt (setBkt s k l) k = l := getD_set_self _ _ _ _ h

theorem getBkt_setBkt_ne (s : BCache) {k x : Nat} (l : List Nat) (h : k ≠ x) :
    getBkt (setBkt s k l) x = getBkt s x := getD_set_ne _ _ _ h

theorem getBuf_oob {s : BCache} {i : Nat} (h : s.bufs.length ≤ i) :
    getBuf s i = default := List.getD_eq_default _ _ h

theorem setBuf_oob {s : BCache} {i : Nat} (b : Buf) (h : s.bufs.length ≤ i) :
    setBuf s i b = s := by
  cases s with
  | mk bufs buckets => simp [setBuf, List.set_eq_of_length_le h]

theorem bhash_lt {n : Nat} (h : 0 < n) (dev blockno : Nat) : bhash n dev blockno < n :=
  Nat.mod_lt _ h

/- Specification of findMatch, the chain walk of both the fast path and
the duplicate re-scan. -/

theorem findMatch_some_split {s : BCache} {l : List Nat} {dev blockno i : Nat}
    (h : findMatch s l dev blockno = some i) :
    ∃ l1 l2, l = l1 ++ i :: l2 ∧
      (getBuf s i).dev = dev ∧ (getBuf s i).blockno = blockno ∧
      ∀ x ∈ l1, ¬((getBuf s x).dev = dev ∧ (getBuf s x).blockno = blockno) := by
  induction l with
  | nil => rw [findMatch] at h; exact Option.noConfusion h
  | cons a rest ih =>
      rw [findMatch] at h
      by_cases hc : (getBuf s a).dev = dev ∧ (getBuf s a).blockno = blockno
      · rw [if_pos hc] at h
        cases h
        exact ⟨[], rest, rfl, hc.1, hc.2, by intro x hx; exact absurd hx (by simp)⟩
      · rw [if_neg hc] at h
        obtain ⟨l1, l2, hsplit, h1, h2, h3⟩ := ih h
        refine ⟨a :: l1, l2, by rw [hsplit]; simp, h1, h2, ?_⟩
        intro x hx
        rcases List.mem_cons.mp hx with hx | hx
        · rw [hx]; exact hc
        · exact h3 x hx

theorem findMatch_some_mem {s : BCache} {l : List Nat} {dev blockno i : Nat}
    (h : findMatch s l dev blockno = some i) :
    i ∈ l ∧ (getBuf s i).dev = dev ∧ (getBuf s i).blockno = blockno := by
  obtain ⟨l1, l2, hsplit, h1, h2, _⟩ := findMatch_some_split h
  exact ⟨by rw [hsplit]; simp, h1, h2⟩

theorem findMatch_none {s : BCache} {l : List Nat} {dev blockno : Nat}
    (h : findMatch s l dev blockno = none) :
    ∀ x ∈ l, ¬((getBuf s x).dev = dev ∧ (getBuf s x).blockno = blockno) := by
  induction l with
  | nil => intro x hx; exact absurd hx (by simp)
  | cons a rest ih =>
      rw [findMatch] at h
      by_cases hc : (getBuf s a).dev = dev ∧ (getBuf s a).blockno = blockno
      · rw [if_pos hc] at h; exact Option.noConfusion h
      · rw [if_neg hc] at h
        intro x hx
        rcases List.mem_cons.mp hx with hx | hx
        · rw [hx]; exact hc
        · exact ih h x hx

/-- C2. On a miss, the slow-path eviction scan of bget selects, among all
chain entries with refcnt 0 across all buckets, one whose timestamp is
maximal, with ties resolved in favor of the latest position in scan order
(a later-examined equal-or-greater stamp replaces the current best, so in
particular ties favor the most recently scanned bucket); and when the scan
completes with a candidate, exactly the one lock of the candidate bucket
is held, while a scan without candidate holds no lock. -/
theorem C2_scan_victim_spec (s : BCache) :
    (∀ c p, (scanAll s).2.1 = some (c, p) →
      (scanAll s).2.2 = [c] ∧
      c < s.buckets.length ∧
      p < (getBkt s c).length ∧
      (getBuf s ((getBkt s c).getD p 0)).refcnt = 0 ∧
      (getBuf s ((getBkt s c).getD p 0)).timestamp = (scanAll s).1 ∧
      (∀ k q, k < s.buckets.length → q < (getBkt s k).length →
        (getBuf s ((getBkt s k).getD q 0)).refcnt = 0 →
        (getBuf s ((getBkt s k).getD q 0)).timestamp ≤ (scanAll s).1 ∧
        ((getBuf s ((getBkt s k).getD q 0)).timestamp = (scanAll s).1 →
          k < c ∨ (k = c ∧ q ≤ p)))) ∧
    ((scanAll s).2.1 = none →
      (scanAll s).2.2 = [] ∧
      ∀ k q, k < s.buckets.length → q < (getBkt s k).length →
        (getBuf s ((getBkt s k).getD q 0)).refcnt ≠ 0) := by
  constructor
  · intro c p h
    obtain ⟨h1, h2, h3, h4, h5⟩ := scanAll_some s h
    exact ⟨h5, h1, h2, h3, h4, scanAll_max s h⟩
  · exact scanAll_none s

/-- State for the witness of C2: slot 0 pinned, slots 1 and 2 free with
equal timestamps in distinct buckets. -/
def wC2 : BCache :=
  ⟨[{ refcnt := 1 }, { timestamp := 7 }, { timestamp := 7 }], [[0], [1], [2]]⟩

/-- Witness for C2 at a concrete state with a timestamp tie: the scan
settles on bucket 2, the most recently scanned, and ends holding exactly
that lock. -/
theorem C2_scan_victim_spec_witness :
    (scanAll wC2).2.1 = some (2, 0) ∧
    (scanAll wC2).2.2 = [2] ∧
    (getBuf wC2 ((getBkt wC2 2).getD 0 0)).refcnt = 0 ∧
    (getBuf wC2 ((getBkt wC2 2).getD 0 0)).timestamp = (scanAll wC2).1 := by
  have h := (C2_scan_victim_spec wC2).1 2 0 (by decide)
  exact ⟨by decide, h.1, h.2.2.2.1, h.2.2.2.2.1⟩

/-- C4. When bget misses and no chain entry anywhere has refcnt 0, the
eviction scan produces no candidate, prev_lru_b is still the null pointer,
and the next statement of the C code, lru_b = prev_lru_b->next,
dereferences it: the embedding returns the nullDeref outcome. In
particular execution never reaches the designated capacity-exhaustion
branch, the panic with message bget: no buffers. -/
theorem C4_exhaustion_nullDeref (s : BCache) (dev blockno : Nat)
    (hmiss : findMatch s (getBkt s (bhash s.buckets.length dev blockno)) dev blockno = none)
    (hpinned : ∀ k, k < s.buckets.length → ∀ q, q < (getBkt s k).length →
      (getBuf s ((getBkt s k).getD q 0)).refcnt ≠ 0) :
    bget s dev blockno = .error .nullDeref ∧
    bget s dev blockno ≠ .error .noBuffers := by
  have hfast : bgetFast s dev blockno = none := by
    rw [bgetFast, hmiss]
  have hnone : (scanAll s).2.1 = none := by
    cases hB : (scanAll s).2.1 with
    | none => rfl
    | some cp =>
        rcases cp with ⟨c, p⟩
        obtain ⟨h1, h2, h3, _, _⟩ := scanAll_some s hB
        exact absurd h3 (hpinned c h1 p h2)
  have heq : bget s dev blockno = .error .nullDeref := by
    simp only [bget, hfast, bgetSlow, hnone]
  exact ⟨heq, by rw [heq]; simp⟩

/-- State for the witness of C4: both slots pinned. -/
def wC4 : BCache := ⟨[{ refcnt := 1 }, { refcnt := 1 }], [[0], [1]]⟩

/-- Witness for C4 at a concrete fully pinned state. -/
theorem C4_exhaustion_nullDeref_witness :
    bget wC4 1 1 = .error .nullDeref ∧ bget wC4 1 1 ≠ .error .noBuffers :=
  C4_exhaustion_nullDeref wC4 1 1 (by decide) (by decide)

/-- Shape of a successful brelse: the sleep lock is dropped, refcnt is
decremented (uint decrement), the timestamp is stamped with the current
tick exactly when the new refcnt is 0, everything else is untouched. -/
theorem brelse_ok {s : BCache} {i : Nat} (t : Nat)
    (hl : (getBuf s i).slocked = true) :
    ∃ s2, brelse s i t = .ok s2 ∧
      (getBuf s2 i).slocked = false ∧
      (getBuf s2 i).refcnt = dec32 (getBuf s i).refcnt ∧
      ((getBuf s2 i).refcnt = 0 → (getBuf s2 i).timestamp = t) ∧
      ((getBuf s2 i).refcnt ≠ 0 → (getBuf s2 i).timestamp = (getBuf s i).timestamp) ∧
      s2.buckets = s.buckets ∧ s2.bufs.length = s.bufs.length ∧
      (∀ x, x ≠ i → getBuf s2 x = getBuf s x) := by
  have hi : i < s.bufs.length := by
    by_contra hge
    rw [getBuf_oob (by omega)] at hl
    simp at hl
  rw [brelse, if_pos hl]
  by_cases hr : dec32 ({ getBuf s i with slocked := false } : Buf).refcnt = 0
  · rw [if_pos hr]
    refine ⟨_, rfl, ?_, ?_, ?_, ?_, rfl, bufsLen_setBuf _ _ _, ?_⟩
    · rw [getBuf_setBuf_self _ hi]
    · rw [getBuf_setBuf_self _ hi]
    · intro _; rw [getBuf_setBuf_self _ hi]
    · intro hne
      rw [getBuf_setBuf_self _ hi] at hne
      exact absurd hr hne
    · intro x hx
      exact getBuf_setBuf_ne _ _ (fun hc => hx hc.symm)
  · rw [if_neg hr]
    refine ⟨_, rfl, ?_, ?_, ?_, ?_, rfl, bufsLen_setBuf _ _ _, ?_⟩
    · rw [getBuf_setBuf_self _ hi]
    · rw [getBuf_setBuf_self _ hi]
    · intro h0
      rw [getBuf_setBuf_self _ hi] at h0
      exact absurd h0 hr
    · intro _; rw [getBuf_setBuf_self _ hi]
    · intro x hx
      exact getBuf_setBuf_ne _ _ (fun hc => hx hc.symm)

/-- C3, amended. The recency stamp records the tick of a transition of
refcnt to 0 only when that transition is performed by brelse: a successful
brelse decrements refcnt and stamps the current tick exactly when the new
refcnt is 0 (leaving the stamp alone otherwise), while bunpin decrements
refcnt without ever touching the timestamp, so a transition to 0 through
bunpin leaves the stamp at its previous value. -/
theorem C3_amended_stamp (s : BCache) (i t : Nat) :
    ((getBuf s i).slocked = true →
      ∃ s2, brelse s i t = .ok s2 ∧
        (getBuf s2 i).refcnt = dec32 (getBuf s i).refcnt ∧
        ((getBuf s2 i).refcnt = 0 → (getBuf s2 i).timestamp = t) ∧
        ((getBuf s2 i).refcnt ≠ 0 →
          (getBuf s2 i).timestamp = (getBuf s i).timestamp)) ∧
    (getBuf (bunpin s i) i).timestamp = (getBuf s i).timestamp ∧
    (i < s.bufs.length → (getBuf (bunpin s i) i).refcnt = dec32 (getBuf s i).refcnt) := by
  refine ⟨?_, ?_, ?_⟩
  · intro hl
    obtain ⟨s2, he, _, h2, h3, h4, _⟩ := brelse_ok t hl
    exact ⟨s2, he, h2, h3, h4⟩
  · by_cases hi : i < s.bufs.length
    · rw [bunpin, getBuf_setBuf_self _ hi]
    · rw [bunpin, setBuf_oob _ (by omega)]
  · intro hi
    rw [bunpin, getBuf_setBuf_self _ hi]

/-- Witness for the amended C3, on the trace state where slot 1 is held
with refcnt 2: brelse at tick 5 leaves the stamp alone (refcnt stays 1)
and bunpin never changes the stamp. -/
theorem C3_amended_stamp_witness :
    (∃ s2, brelse c3s2 1 5 = .ok s2 ∧
      (getBuf s2 1).refcnt = dec32 (getBuf c3s2 1).refcnt ∧
      ((getBuf s2 1).refcnt = 0 → (getBuf s2 1).timestamp = 5) ∧
      ((getBuf s2 1).refcnt ≠ 0 →
        (getBuf s2 1).timestamp = (getBuf c3s2 1).timestamp)) ∧
    (getBuf (bunpin c3s2 1) 1).timestamp = (getBuf c3s2 1).timestamp := by
  have h := C3_amended_stamp c3s2 1 5
  exact ⟨h.1 (by decide), h.2.1⟩

/-- C7. Calling bwrite or brelse on a slot whose sleep lock the caller
does not hold panics; when the lock is held the precondition check never
fires: bwrite performs the physical write of the slot content and brelse
succeeds, releasing the sleep lock and decrementing refcnt by exactly one
(uint decrement; equal to the arithmetic decrement whenever the count is a
positive uint value). -/
theorem C7_lock_guard (s : BCache) (i t : Nat) :
    ((getBuf s i).slocked = false →
      bwrite s i = .error .bwritePanic ∧ brelse s i t = .error .brelsePanic) ∧
    ((getBuf s i).slocked = true →
      bwrite s i = .ok ((getBuf s i).dev, (getBuf s i).blockno, (getBuf s i).data) ∧
      ∃ s2, brelse s i t = .ok s2 ∧
        (getBuf s2 i).slocked = false ∧
        (getBuf s2 i).refcnt = dec32 (getBuf s i).refcnt ∧
        (1 ≤ (getBuf s i).refcnt → (getBuf s i).refcnt < UINTMOD →
          (getBuf s2 i).refcnt = (getBuf s i).refcnt - 1)) := by
  constructor
  · intro hl
    constructor
    · rw [bwrite, if_neg (by rw [hl]; simp)]
    · rw [brelse, if_neg (by rw [hl]; simp)]
  · intro hl
    refine ⟨by rw [bwrite, if_pos hl], ?_⟩
    obtain ⟨s2, he, h1, h2, _, _, _, _⟩ := brelse_ok t hl
    refine ⟨s2, he, h1, h2, ?_⟩
    intro hge hlt
    rw [h2, dec32, UINTMOD] at *
    omega

/-- Witness for C7: on the scenario state where slot 1 is sleep-locked
with refcnt 2, bwrite succeeds and brelse decrements to 1; on the initial
state no lock is held and both calls panic. -/
theorem C7_lock_guard_witness :
    (bwrite (binit 1 2 0) 1 = .error .bwritePanic ∧
      brelse (binit 1 2 0) 1 9 = .error .brelsePanic) ∧
    bwrite c3s2 1 = .ok ((getBuf c3s2 1).dev, (getBuf c3s2 1).blockno, (getBuf c3s2 1).data) ∧
    (∃ s2, brelse c3s2 1 5 = .ok s2 ∧
      (getBuf s2 1).slocked = false ∧
      (getBuf s2 1).refcnt = dec32 (getBuf c3s2 1).refcnt ∧
      (1 ≤ (getBuf c3s2 1).refcnt → (getBuf c3s2 1).refcnt < UINTMOD →
        (getBuf s2 1).refcnt = (getBuf c3s2 1).refcnt - 1)) := by
  have h1 := (C7_lock_guard (binit 1 2 0) 1 9).1 (by decide)
  have h2 := (C7_lock_guard c3s2 1 5).2 (by decide)
  exact ⟨h1, h2.1, h2.2⟩

/- Case analysis of a successful bget. -/

theorem stealLink_bufs (s : BCache) (c p dev blockno : Nat) :
    (stealLink s c p dev blockno).bufs = s.bufs := rfl

theorem stealLink_bucketsLen (s : BCache) (c p dev blockno : Nat) :
    (stealLink s c p dev blockno).buckets.length = s.buckets.length := by
  simp only [stealLink, setBkt, List.length_set]

theorem getBuf_stealLink (s : BCache) (c p dev blockno i : Nat) :
    getBuf (stealLink s c p dev blockno) i = getBuf s i := rfl

/-- The home bucket chain right after the victim migration: the victim
sits at the head, in front of the chain left by the unlink step. -/
theorem getBkt_stealLink_home (s : BCache) (c p dev blockno : Nat)
    (hlen : 0 < s.buckets.length) :
    getBkt (stealLink s c p dev blockno) (bhash s.buckets.length dev blockno) =
      ((getBkt s c).getD p 0) ::
        getBkt (setBkt s c ((getBkt s c).eraseIdx p))
          (bhash s.buckets.length dev blockno) := by
  simp only [stealLink]
  exact getBkt_setBkt_self _
    (by rw [bucketsLen_setBkt]; exact bhash_lt hlen _ _)

/-- A member of the post-unlink home chain was a member of bucket c or of
the home bucket before the migration. -/
theorem mem_getBkt_stealLink_inner {s : BCache} {c p dev blockno x : Nat}
    (hx : x ∈ getBkt (setBkt s c ((getBkt s c).eraseIdx p))
      (bhash s.buckets.length dev blockno)) :
    x ∈ getBkt s c ∨ x ∈ getBkt s (bhash s.buckets.length dev blockno) := by
  by_cases hcl : c < s.buckets.length
  · by_cases hch : c = bhash s.buckets.length dev blockno
    · rw [← hch, getBkt_setBkt_self _ hcl] at hx
      exact Or.inl ((List.eraseIdx_sublist _ _).subset hx)
    · rw [getBkt_setBkt_ne _ _ hch] at hx
      exact Or.inr hx
  · have : (setBkt s c ((getBkt s c).eraseIdx p)) = s := by
      cases s with
      | mk bufs buckets =>
          simp only [setBkt]
          rw [List.set_eq_of_length_le (by simp only [List.length] at hcl ⊢; omega)]
    rw [this] at hx
    exact Or.inr hx

/-- Complete case analysis of a successful bget: either a fast-path hit on
the first matching chain entry of the home bucket, or a miss followed by
the eviction scan finding a victim at (c, p) and then either a duplicate
re-scan hit or the reassignment of the victim. -/
theorem bget_cases {s : BCache} {dev blockno : Nat} {s1 : BCache} {i : Nat}
    (h : bget s dev blockno = .ok (s1, i)) :
    (∃ j, findMatch s (getBkt s (bhash s.buckets.length dev blockno)) dev blockno = some j ∧
      i = j ∧ s1 = setBuf s j (bumpRef (getBuf s j))) ∨
    (findMatch s (getBkt s (bhash s.buckets.length dev blockno)) dev blockno = none ∧
      ∃ c p, (scanAll s).2.1 = some (c, p) ∧
        ((∃ x, findMatch (stealLink s c p dev blockno)
            (getBkt (stealLink s c p dev blockno) (bhash s.buckets.length dev blockno))
            dev blockno = some x ∧
          i = x ∧ s1 = setBuf (stealLink s c p dev blockno) x
            (bumpRef (getBuf (stealLink s c p dev blockno) x))) ∨
        (findMatch (stealLink s c p dev blockno)
            (getBkt (stealLink s c p dev blockno) (bhash s.buckets.length dev blockno))
            dev blockno = none ∧
          i = (getBkt s c).getD p 0 ∧
          s1 = setBuf (stealLink s c p dev blockno) ((getBkt s c).getD p 0)
            { getBuf (stealLink s c p dev blockno) ((getBkt s c).getD p 0) with
              dev := dev, blockno := blockno,
              valid := false, refcnt := 1, slocked := true }))) := by
  rw [bget] at h
  cases hf : bgetFast s dev blockno with
  | some r =>
      rw [hf] at h
      dsimp only [] at h
      injection h with h
      subst h
      rw [bgetFast] at hf
      cases hm : findMatch s (getBkt s (bhash s.buckets.length dev blockno)) dev blockno with
      | some j =>
          rw [hm] at hf
          dsimp only [] at hf
          injection hf with hf
          exact Or.inl ⟨j, rfl, (congrArg Prod.snd hf).symm, (congrArg Prod.fst hf).symm⟩
      | none =>
          rw [hm] at hf
          exact Option.noConfusion hf
  | none =>
      rw [hf] at h
      dsimp only [] at h
      rw [bgetFast] at hf
      cases hm : findMatch s (getBkt s (bhash s.buckets.length dev blockno)) dev blockno with
      | some j =>
          rw [hm] at hf
          dsimp only [] at hf
          exact Option.noConfusion hf
      | none =>
          refine Or.inr ⟨rfl, ?_⟩
          rw [bgetSlow] at h
          cases hb : (scanAll s).2.1 with
          | none =>
              rw [hb] at h
              dsimp only [] at h
              exact Except.noConfusion h
          | some cp =>
              rcases cp with ⟨c, p⟩
              rw [hb] at h
              dsimp only [] at h
              refine ⟨c, p, rfl, ?_⟩
              cases hre : findMatch (stealLink s c p dev blockno)
                  (getBkt (stealLink s c p dev blockno)
                    (bhash s.buckets.length dev blockno)) dev blockno with
              | some x =>
                  rw [hre] at h
                  dsimp only [] at h
                  injection h with h
                  exact Or.inl ⟨x, rfl, (congrArg Prod.snd h).symm, (congrArg Prod.fst h).symm⟩
              | none =>
                  rw [hre] at h
                  dsimp only [] at h
                  injection h with h
                  exact Or.inr ⟨rfl, (congrArg Prod.snd h).symm, (congrArg Prod.fst h).symm⟩

/-- Well-formed bucket table: every chain entry names a slot of the pool.
All reachable states satisfy this (the C chains hold pointers into the
pool array). -/
def WF (s : BCache) : Prop :=
  ∀ k, k < s.buckets.length → ∀ x ∈ getBkt s k, x < s.bufs.length

instance (s : BCache) : Decidable (WF s) := by unfold WF; infer_instance

/-- A fast-path hit forces a nonempty bucket table. -/
theorem bucketsPos_of_findMatch_some {s : BCache} {dev blockno j : Nat}
    (h : findMatch s (getBkt s (bhash s.buckets.length dev blockno)) dev blockno = some j) :
    0 < s.buckets.length := by
  by_contra hc
  have hempty : getBkt s (bhash s.buckets.length dev blockno) = [] := by
    unfold getBkt
    exact List.getD_eq_default _ _ (by omega)
  rw [hempty, findMatch] at h
  exact Option.noConfusion h

/-- Basic facts about a successful bget on a well-formed state: the
returned index is a pool slot, the pool size and the bucket count are
unchanged, and the returned slot is handed out sleep-locked. -/
theorem bget_ok_facts {s : BCache} {dev blockno : Nat} {s1 : BCache} {i : Nat}
    (hwf : WF s) (h : bget s dev blockno = .ok (s1, i)) :
    i < s.bufs.length ∧ s1.bufs.length = s.bufs.length ∧
    (getBuf s1 i).slocked = true ∧ s1.buckets.length = s.buckets.length := by
  rcases bget_cases h with ⟨j, hm, hi, hs⟩ | ⟨hm, c, p, hb, hrest⟩
  · have hlen : 0 < s.buckets.length := bucketsPos_of_findMatch_some hm
    obtain ⟨hmem, _, _⟩ := findMatch_some_mem hm
    have hj : j < s.bufs.length :=
      hwf _ (bhash_lt hlen dev blockno) j hmem
    subst hi; subst hs
    exact ⟨hj, bufsLen_setBuf _ _ _,
      by rw [getBuf_setBuf_self _ hj]; rfl, rfl⟩
  · obtain ⟨hc, hp, hcand, _, _⟩ := scanAll_some s hb
    have hlen : 0 < s.buckets.length := by omega
    have hv : (getBkt s c).getD p 0 < s.bufs.length :=
      hwf c hc _ (getD_mem hp)
    rcases hrest with ⟨x, hre, hi, hs⟩ | ⟨hre, hi, hs⟩
    · obtain ⟨hmem, _, _⟩ := findMatch_some_mem hre
      rw [getBkt_stealLink_home s c p dev blockno hlen] at hmem
      have hx : x < s.bufs.length := by
        rcases List.mem_cons.mp hmem with hx | hx
        · rw [hx]; exact hv
        · rcases mem_getBkt_stealLink_inner hx with hx | hx
          · exact hwf c hc x hx
          · exact hwf _ (bhash_lt hlen dev blockno) x hx
      subst hi; subst hs
      refine ⟨hx, ?_, ?_, ?_⟩
      · rw [bufsLen_setBuf, stealLink_bufs]
      · rw [getBuf_setBuf_self _ (by rw [stealLink_bufs]; exact hx)]; rfl
      · rw [buckets_setBuf, stealLink_bucketsLen]
    · subst hi; subst hs
      refine ⟨hv, ?_, ?_, ?_⟩
      · rw [bufsLen_setBuf, stealLink_bufs]
      · rw [getBuf_setBuf_self _ (by rw [stealLink_bufs]; exact hv)]
      · rw [buckets_setBuf, stealLink_bucketsLen]

/-- C9. For every (dev, blockno), when bget succeeds on a well-formed
state, bread succeeds on that same state and returns the very slot bget
produced, still sleep-locked and now valid; it performs exactly one
physical read (count 1), populating the content from the disk value, if
and only if the slot was not valid when bget returned it, and performs
none (leaving the state exactly as bget made it) otherwise. -/
theorem C9_read_through (s : BCache) (dev blockno val : Nat) (s1 : BCache) (i : Nat)
    (hwf : WF s) (hget : bget s dev blockno = .ok (s1, i)) :
    ∃ s2 n, bread s dev blockno val = .ok (s2, i, n) ∧
      (getBuf s2 i).slocked = true ∧
      (getBuf s2 i).valid = true ∧
      (n = 1 ↔ (getBuf s1 i).valid = false) ∧
      ((getBuf s1 i).valid = false → (getBuf s2 i).data = val) ∧
      ((getBuf s1 i).valid = true → s2 = s1) := by
  obtain ⟨hi, hlen, hsl, _⟩ := bget_ok_facts hwf hget
  have hi1 : i < s1.bufs.length := by omega
  by_cases hv : (getBuf s1 i).valid
  · refine ⟨s1, 0, ?_, hsl, hv, by simp [hv], by simp [hv], fun _ => rfl⟩
    rw [bread, hget]
    dsimp only []
    rw [if_pos hv]
  · refine ⟨setBuf s1 i { getBuf s1 i with data := val, valid := true }, 1,
      ?_, ?_, ?_, ?_, ?_, ?_⟩
    · rw [bread, hget]
      dsimp only []
      rw [if_neg hv]
    · rw [getBuf_setBuf_self _ hi1]; exact hsl
    · rw [getBuf_setBuf_self _ hi1]
    · simp only [Bool.not_eq_true] at hv
      simp [hv]
    · intro _; rw [getBuf_setBuf_self _ hi1]
    · intro hc; exact absurd hc hv

/-- Witness for C9: bget(0,0) on the freshly initialized cache is a
fast-path hit on the never-populated slot 0, so bread(0,0) performs
exactly one physical read and returns the slot valid and locked. -/
theorem C9_read_through_witness :
    ∃ s2 n, bread (binit 13 30 0) 0 0 77 = .ok (s2, 0, n) ∧
      (getBuf s2 0).slocked = true ∧
      (getBuf s2 0).valid = true ∧
      (n = 1 ↔ (getBuf (okSt (bget (binit 13 30 0) 0 0)) 0).valid = false) ∧
      ((getBuf (okSt (bget (binit 13 30 0) 0 0)) 0).valid = false →
        (getBuf s2 0).data = 77) ∧
      ((getBuf (okSt (bget (binit 13 30 0) 0 0)) 0).valid = true →
        s2 = okSt (bget (binit 13 30 0) 0 0)) :=
  C9_read_through (binit 13 30 0) 0 0 77 (okSt (bget (binit 13 30 0) 0 0)) 0
    (by decide) (by decide)

/-- C6. On the slow path, when the duplicate re-scan of the home bucket,
performed after the victim has been linked at its head, finds a chain slot
x already carrying (dev, blockno) and distinct from the victim, bget
returns x with its refcnt incremented and its sleep lock acquired, while
the just-migrated victim stays linked at the head of the home bucket chain
with all its fields untouched, its stale identity included, and refcnt 0:
it is not re-removed. (In the sequential embedding the hypothesis of a
re-scan hit encodes the concurrent insertion of the duplicate between the
fast-path miss and the re-scan, which is the situation this code path
serves.) -/
theorem C6_rescan_hit (s : BCache) (dev blockno c p x : Nat)
    (hwf : WF s)
    (hbest : (scanAll s).2.1 = some (c, p))
    (hre : findMatch (stealLink s c p dev blockno)
      (getBkt (stealLink s c p dev blockno) (bhash s.buckets.length dev blockno))
      dev blockno = some x)
    (hxv : x ≠ (getBkt s c).getD p 0) :
    bgetSlow s dev blockno = .ok
      (setBuf (stealLink s c p dev blockno) x
        (bumpRef (getBuf (stealLink s c p dev blockno) x)), x) ∧
    (getBuf (setBuf (stealLink s c p dev blockno) x
        (bumpRef (getBuf (stealLink s c p dev blockno) x))) x).refcnt =
      inc32 (getBuf s x).refcnt ∧
    getBkt (setBuf (stealLink s c p dev blockno) x
        (bumpRef (getBuf (stealLink s c p dev blockno) x)))
        (bhash s.buckets.length dev blockno) =
      ((getBkt s c).getD p 0) ::
        getBkt (setBkt s c ((getBkt s c).eraseIdx p))
          (bhash s.buckets.length dev blockno) ∧
    getBuf (setBuf (stealLink s c p dev blockno) x
        (bumpRef (getBuf (stealLink s c p dev blockno) x)))
      ((getBkt s c).getD p 0) = getBuf s ((getBkt s c).getD p 0) ∧
    (getBuf s ((getBkt s c).getD p 0)).refcnt = 0 := by
  obtain ⟨hc, hp, hcand, _, _⟩ := scanAll_some s hbest
  have hlen : 0 < s.buckets.length := by omega
  have hx : x < s.bufs.length := by
    obtain ⟨hmem, _, _⟩ := findMatch_some_mem hre
    rw [getBkt_stealLink_home s c p dev blockno hlen] at hmem
    rcases List.mem_cons.mp hmem with hx | hx
    · exact absurd hx hxv
    · rcases mem_getBkt_stealLink_inner hx with hx | hx
      · exact hwf c hc x hx
      · exact hwf _ (bhash_lt hlen dev blockno) x hx
  refine ⟨?_, ?_, ?_, ?_, hcand⟩
  · rw [bgetSlow, hbest]
    dsimp only []
    rw [hre]
  · rw [getBuf_setBuf_self _ (by rw [stealLink_bufs]; exact hx)]
    rw [getBuf_stealLink]
    rfl
  · rw [getBkt_setBuf]
    exact getBkt_stealLink_home s c p dev blockno hlen
  · rw [getBuf_setBuf_ne _ _ hxv, getBuf_stealLink]

/-- State for the witness of C6: slot 0 is a live duplicate of (1, 2)
sitting in the home bucket 0 (standing for a concurrent insertion), slot 1
is the unreferenced victim with stale identity (3, 4) in bucket 1. -/
def wC6 : BCache :=
  ⟨[{ dev := 1, blockno := 2, refcnt := 1 }, { dev := 3, blockno := 4 }], [[0], [1]]⟩

/-- Witness for C6: the slow path of bget on wC6 for (1, 2) migrates the
victim slot 1 into bucket 0 and then returns the duplicate slot 0 with its
refcnt incremented, leaving the victim at the head of bucket 0 untouched
with its stale identity and refcnt 0. -/
theorem C6_rescan_hit_witness :
    bgetSlow wC6 1 2 = .ok
      (setBuf (stealLink wC6 1 0 1 2) 0
        (bumpRef (getBuf (stealLink wC6 1 0 1 2) 0)), 0) ∧
    (getBuf (setBuf (stealLink wC6 1 0 1 2) 0
        (bumpRef (getBuf (stealLink wC6 1 0 1 2) 0))) 0).refcnt =
      inc32 (getBuf wC6 0).refcnt ∧
    getBkt (setBuf (stealLink wC6 1 0 1 2) 0
        (bumpRef (getBuf (stealLink wC6 1 0 1 2) 0)))
        (bhash wC6.buckets.length 1 2) =
      ((getBkt wC6 1).getD 0 0) ::
        getBkt (setBkt wC6 1 ((getBkt wC6 1).eraseIdx 0)) (bhash wC6.buckets.length 1 2) ∧
    getBuf (setBuf (stealLink wC6 1 0 1 2) 0
        (bumpRef (getBuf (stealLink wC6 1 0 1 2) 0)))
      ((getBkt wC6 1).getD 0 0) = getBuf wC6 ((getBkt wC6 1).getD 0 0) ∧
    (getBuf wC6 ((getBkt wC6 1).getD 0 0)).refcnt = 0 :=
  C6_rescan_hit wC6 1 2 1 0 0 (by decide) (by decide) (by decide) (by decide)

/- Membership invariant: the bucket chains partition the slot pool. -/

/-- Every slot of the pool sits on exactly one bucket chain: the
concatenation of all chains is a permutation of the pool indices. -/
def MemSlots (s : BCache) : Prop :=
  s.buckets.flatten.Perm (List.range s.bufs.length)

/-- A chain is a permutation of the picked element consed onto the chain
with that position erased. -/
theorem perm_getD_cons_eraseIdx :
    ∀ (l : List Nat) (p : Nat), p < l.length →
      l.Perm (l.getD p 0 :: l.eraseIdx p) := by
  intro l
  induction l with
  | nil => intro p hp; simp at hp
  | cons a t ih =>
      intro p hp
      cases p with
      | zero => simp [List.eraseIdx]
      | succ q =>
          have hq : q < t.length := by simpa using hp
          have h1 : (a :: t).Perm (a :: (t.getD q 0 :: t.eraseIdx q)) :=
            (ih q hq).cons a
          have h2 : (a :: (t.getD q 0 :: t.eraseIdx q)).Perm
              (t.getD q 0 :: (a :: t.eraseIdx q)) := List.Perm.swap _ _ _
          have h3 := h1.trans h2
          simpa [List.eraseIdx] using h3

/-- Replacing one chain of the table changes the flattened count of every
index by the difference between the counts of the two chains. -/
theorem count_flatten_set :
    ∀ (B : List (List Nat)) (c : Nat) (l2 : List Nat) (x : Nat), c < B.length →
      List.count x (B.set c l2).flatten + List.count x (B.getD c []) =
        List.count x B.flatten + List.count x l2 := by
  intro B
  induction B with
  | nil => intro c l2 x hc; simp at hc
  | cons b rest ih =>
      intro c l2 x hc
      cases c with
      | zero =>
          simp only [List.set, List.getD_cons_zero, List.flatten_cons, List.count_append]
          omega
      | succ c' =>
          have hc' : c' < rest.length := by simpa using hc
          have := ih c' l2 x hc'
          simp only [List.set, List.getD_cons_succ, List.flatten_cons, List.count_append]
          omega

/-- Stealing the victim from bucket c and linking it at the head of the
home bucket preserves the membership invariant. -/
theorem memSlots_stealLink {s : BCache} {c p dev blockno : Nat}
    (hm : MemSlots s) (hc : c < s.buckets.length) (hp : p < (getBkt s c).length) :
    MemSlots (stealLink s c p dev blockno) := by
  have hlen : 0 < s.buckets.length := by omega
  have hh := bhash_lt hlen dev blockno
  unfold MemSlots at hm ⊢
  rw [stealLink_bufs]
  refine (List.perm_iff_count.mpr ?_).trans hm
  intro x
  have e1 := count_flatten_set (setBkt s c ((getBkt s c).eraseIdx p)).buckets
    (bhash s.buckets.length dev blockno)
    (((getBkt s c).getD p 0) ::
      getBkt (setBkt s c ((getBkt s c).eraseIdx p)) (bhash s.buckets.length dev blockno))
    x (by rw [bucketsLen_setBkt]; exact hh)
  have e2 := count_flatten_set s.buckets c ((getBkt s c).eraseIdx p) x hc
  have e3 : List.count x (getBkt s c) =
      List.count x (((getBkt s c).getD p 0) :: (getBkt s c).eraseIdx p) :=
    (perm_getD_cons_eraseIdx _ p hp).count_eq x
  have hbk : (stealLink s c p dev blockno).buckets =
      ((setBkt s c ((getBkt s c).eraseIdx p)).buckets.set
        (bhash s.buckets.length dev blockno)
        (((getBkt s c).getD p 0) ::
          getBkt (setBkt s c ((getBkt s c).eraseIdx p))
            (bhash s.buckets.length dev blockno))) := rfl
  rw [hbk]
  have hgetc : (setBkt s c ((getBkt s c).eraseIdx p)).buckets.getD
      (bhash s.buckets.length dev blockno) [] =
      getBkt (setBkt s c ((getBkt s c).eraseIdx p))
        (bhash s.buckets.length dev blockno) := rfl
  have hgetc2 : s.buckets.getD c [] = getBkt s c := rfl
  have hfl : (setBkt s c ((getBkt s c).eraseIdx p)).buckets.flatten =
      (s.buckets.set c ((getBkt s c).eraseIdx p)).flatten := rfl
  rw [hgetc] at e1
  rw [hgetc2] at e2
  rw [hfl] at e1
  simp only [List.count_cons] at e1 e3
  omega

/-- A successful bget preserves the membership invariant. -/
theorem memSlots_bget {s : BCache} {dev blockno : Nat} {s1 : BCache} {i : Nat}
    (hm : MemSlots s) (h : bget s dev blockno = .ok (s1, i)) : MemSlots s1 := by
  rcases bget_cases h with ⟨j, _, _, hs⟩ | ⟨_, c, p, hb, hrest⟩
  · subst hs
    unfold MemSlots at hm ⊢
    rw [buckets_setBuf, bufsLen_setBuf]
    exact hm
  · obtain ⟨hc, hp, _, _, _⟩ := scanAll_some s hb
    have hsteal := @memSlots_stealLink s c p dev blockno hm hc hp
    rcases hrest with ⟨x, _, _, hs⟩ | ⟨_, _, hs⟩ <;>
      · subst hs
        unfold MemSlots at hsteal ⊢
        rw [buckets_setBuf, bufsLen_setBuf]
        exact hsteal

/-- A successful brelse leaves the bucket table and the pool size alone. -/
theorem brelse_shape {s : BCache} {i t : Nat} {s2 : BCache}
    (h : brelse s i t = .ok s2) :
    s2.buckets = s.buckets ∧ s2.bufs.length = s.bufs.length := by
  rw [brelse] at h
  by_cases hl : (getBuf s i).slocked = true
  · rw [if_pos hl] at h
    dsimp only [] at h
    by_cases hr : dec32 (getBuf s i).refcnt = 0
    · rw [if_pos (by exact hr)] at h
      injection h with h
      subst h
      exact ⟨rfl, bufsLen_setBuf _ _ _⟩
    · rw [if_neg (by exact hr)] at h
      injection h with h
      subst h
      exact ⟨rfl, bufsLen_setBuf _ _ _⟩
  · rw [if_neg hl] at h
    exact Except.noConfusion h

/-- One interface call preserves the membership invariant. -/
theorem memSlots_stepOp {s : BCache} {op : Op} {s2 : BCache}
    (hm : MemSlots s) (h : stepOp s op = .ok s2) : MemSlots s2 := by
  cases op with
  | get d b =>
      rw [stepOp] at h
      cases hg : bget s d b with
      | error e => rw [hg] at h; exact Except.noConfusion h
      | ok pr =>
          rw [hg] at h
          dsimp only [] at h
          injection h with h
          subst h
          exact memSlots_bget hm (by rw [hg])
  | read d b val =>
      rw [stepOp] at h
      cases hg : bread s d b val with
      | error e => rw [hg] at h; exact Except.noConfusion h
      | ok pr =>
          rw [hg] at h
          dsimp only [] at h
          injection h with h
          subst h
          rw [bread] at hg
          cases hb : bget s d b with
          | error e => rw [hb] at hg; exact Except.noConfusion hg
          | ok pr2 =>
              rw [hb] at hg
              dsimp only [] at hg
              have hmem : MemSlots pr2.1 := memSlots_bget hm (by rw [hb])
              by_cases hv : (getBuf pr2.1 pr2.2).valid = true
              · rw [if_pos hv] at hg
                injection hg with hg
                rw [← hg]
                exact hmem
              · rw [if_neg hv] at hg
                injection hg with hg
                rw [← hg]
                unfold MemSlots at hmem ⊢
                rw [buckets_setBuf, bufsLen_setBuf]
                exact hmem
  | rel i t =>
      obtain ⟨hb, hl⟩ := brelse_shape (by rw [stepOp] at h; exact h)
      unfold MemSlots at hm ⊢
      rw [hb, hl]
      exact hm
  | pin i =>
      rw [stepOp] at h
      injection h with h
      subst h
      unfold MemSlots at hm ⊢
      rw [bpin, buckets_setBuf, bufsLen_setBuf]
      exact hm
  | unpin i =>
      rw [stepOp] at h
      injection h with h
      subst h
      unfold MemSlots at hm ⊢
      rw [bunpin, buckets_setBuf, bufsLen_setBuf]
      exact hm

/-- A whole successful run of interface calls preserves the membership
invariant. -/
theorem memSlots_runOps :
    ∀ (ops : List Op) (s s2 : BCache), MemSlots s → runOps s ops = .ok s2 →
      MemSlots s2 := by
  intro ops
  induction ops with
  | nil =>
      intro s s2 hm h
      rw [runOps] at h
      injection h with h
      subst h
      exact hm
  | cons op rest ih =>
      intro s s2 hm h
      rw [runOps] at h
      cases hs : stepOp s op with
      | error e => rw [hs] at h; exact Except.noConfusion h
      | ok s1 =>
          rw [hs] at h
          dsimp only [] at h
          exact ih s1 s2 (memSlots_stepOp hm hs) h

/-- The flattened chains of a replicate of empties are empty. -/
theorem flatten_replicate_nil :
    ∀ n : Nat, (List.replicate n ([] : List Nat)).flatten = [] := by
  intro n
  induction n with
  | zero => rfl
  | succ m ih => simp [List.replicate, ih]

/-- The freshly initialized cache satisfies the membership invariant. -/
theorem memSlots_binit (nbuk nbuf t : Nat) : MemSlots (binit nbuk nbuf t) := by
  unfold MemSlots binit
  simp only [List.flatten_cons, flatten_replicate_nil, List.append_nil,
    List.length_replicate]
  exact List.Perm.refl _

/-- A successful bget leaves the pool size alone. -/
theorem bget_bufsLen {s : BCache} {dev blockno : Nat} {s1 : BCache} {i : Nat}
    (h : bget s dev blockno = .ok (s1, i)) : s1.bufs.length = s.bufs.length := by
  rcases bget_cases h with ⟨j, _, _, hs⟩ | ⟨_, c, p, _, hrest⟩
  · subst hs
    exact bufsLen_setBuf _ _ _
  · rcases hrest with ⟨x, _, _, hs⟩ | ⟨_, _, hs⟩ <;>
      · subst hs
        rw [bufsLen_setBuf, stealLink_bufs]

/-- One interface call leaves the pool size alone. -/
theorem stepOp_bufsLen {s : BCache} {op : Op} {s2 : BCache}
    (h : stepOp s op = .ok s2) : s2.bufs.length = s.bufs.length := by
  cases op with
  | get d b =>
      rw [stepOp] at h
      cases hg : bget s d b with
      | error e => rw [hg] at h; exact Except.noConfusion h
      | ok pr =>
          rw [hg] at h
          dsimp only [] at h
          injection h with h
          subst h
          exact @bget_bufsLen s d b pr.1 pr.2 (by rw [hg])
  | read d b val =>
      rw [stepOp] at h
      cases hg : bread s d b val with
      | error e => rw [hg] at h; exact Except.noConfusion h
      | ok pr =>
          rw [hg] at h
          dsimp only [] at h
          injection h with h
          subst h
          rw [bread] at hg
          cases hb : bget s d b with
          | error e => rw [hb] at hg; exact Except.noConfusion hg
          | ok pr2 =>
              rw [hb] at hg
              dsimp only [] at hg
              have hl1 : pr2.1.bufs.length = s.bufs.length :=
                @bget_bufsLen s d b pr2.1 pr2.2 (by rw [hb])
              by_cases hv : (getBuf pr2.1 pr2.2).valid = true
              · rw [if_pos hv] at hg
                injection hg with hg
                rw [← hg]
                exact hl1
              · rw [if_neg hv] at hg
                injection hg with hg
                rw [← hg]
                rw [bufsLen_setBuf]
                exact hl1
  | rel i t =>
      exact (brelse_shape (by rw [stepOp] at h; exact h)).2
  | pin i =>
      rw [stepOp] at h
      injection h with h
      subst h
      rw [bpin, bufsLen_setBuf]
  | unpin i =>
      rw [stepOp] at h
      injection h with h
      subst h
      rw [bunpin, bufsLen_setBuf]

/-- A whole run of interface calls leaves the pool size alone. -/
theorem runOps_bufsLen :
    ∀ (ops : List Op) (s s2 : BCache), runOps s ops = .ok s2 →
      s2.bufs.length = s.bufs.length := by
  intro ops
  induction ops with
  | nil =>
      intro s s2 h
      rw [runOps] at h
      injection h with h
      subst h
      rfl
  | cons op rest ih =>
      intro s s2 h
      rw [runOps] at h
      cases hs : stepOp s op with
      | error e => rw [hs] at h; exact Except.noConfusion h
      | ok s1 =>
          rw [hs] at h
          dsimp only [] at h
          rw [ih s1 s2 h, stepOp_bufsLen hs]

/-- C8. At every quiescent point of any successful run of interface calls
from the initialized cache, the concatenation of all bucket chains is a
permutation of the NBUF pool indices: every slot belongs to exactly one
bucket chain (each pool index occurs exactly once across all chains) and
the chains hold NBUF slots in total. The slow path of bget keeps this by
relinking the unlinked victim unconditionally, even on the runs whose
duplicate re-scan succeeds. -/
theorem C8_membership (ops : List Op) (s : BCache)
    (h : runOps (binit NBUK NBUF 0) ops = .ok s) :
    s.buckets.flatten.Perm (List.range NBUF) ∧
    (∀ i, i < NBUF → List.count i s.buckets.flatten = 1) ∧
    s.buckets.flatten.length = NBUF := by
  have hm : MemSlots s := memSlots_runOps ops _ s (memSlots_binit NBUK NBUF 0) h
  have hlen : s.bufs.length = NBUF := by
    rw [runOps_bufsLen ops _ s h]
    unfold binit
    exact List.length_replicate _ _
  unfold MemSlots at hm
  rw [hlen] at hm
  refine ⟨hm, ?_, by rw [hm.length_eq, List.length_range]⟩
  intro i hi
  have hnd : s.buckets.flatten.Nodup := hm.symm.nodup (List.nodup_range NBUF)
  have hmem : i ∈ s.buckets.flatten := hm.mem_iff.mpr (List.mem_range.mpr hi)
  exact List.count_eq_one_of_mem hnd hmem

/-- Trace state for the witness of C8: one acquire, a pin, a release and
an unpin on the slot the acquire handed out. -/
def c8w : BCache :=
  okRel (runOps (binit NBUK NBUF 0) [.get 1 10, .pin 29, .rel 29 3, .unpin 29])

/-- Witness for C8 on a concrete run exercising bget, bpin, brelse and
bunpin. -/
theorem C8_membership_witness :
    List.count 0 c8w.buckets.flatten = 1 ∧ c8w.buckets.flatten.length = 30 := by
  have h := C8_membership [.get 1 10, .pin 29, .rel 29 3, .unpin 29] c8w (by decide)
  exact ⟨h.2.1 0 (by decide), h.2.2⟩

/- The full sequential cache invariant behind identity uniqueness. -/

theorem mem_flatten_of_mem_getBkt {s : BCache} {k x : Nat}
    (hk : k < s.buckets.length) (hx : x ∈ getBkt s k) : x ∈ s.buckets.flatten := by
  refine List.mem_flatten.mpr ⟨getBkt s k, ?_, hx⟩
  unfold getBkt
  rw [List.getD_eq_getElem _ _ hk]
  exact List.getElem_mem hk

theorem wf_of_memSlots {s : BCache} (hm : MemSlots s) : WF s := by
  intro k hk x hx
  exact List.mem_range.mp (hm.mem_iff.mp (mem_flatten_of_mem_getBkt hk hx))

theorem flatten_nodup {s : BCache} (hm : MemSlots s) : s.buckets.flatten.Nodup :=
  hm.symm.nodup (List.nodup_range _)

/-- In a table with no duplicate across its flattened chains, an index on
two chains pins them to be the same chain. -/
theorem nodup_flatten_bucket_unique :
    ∀ (B : List (List Nat)), B.flatten.Nodup →
      ∀ k1 k2 x, k1 < B.length → k2 < B.length →
        x ∈ B.getD k1 [] → x ∈ B.getD k2 [] → k1 = k2 := by
  intro B
  induction B with
  | nil => intro _ k1 k2 x h1; simp at h1
  | cons b rest ih =>
      intro hnd k1 k2 x h1 h2 hx1 hx2
      rw [List.flatten_cons] at hnd
      obtain ⟨hb, hrest, hdisj⟩ := List.nodup_append.mp hnd
      cases k1 with
      | zero =>
          cases k2 with
          | zero => rfl
          | succ q2 =>
              exfalso
              rw [List.getD_cons_zero] at hx1
              rw [List.getD_cons_succ] at hx2
              have hq2 : q2 < rest.length := by simpa using h2
              have : x ∈ rest.flatten := by
                refine List.mem_flatten.mpr ⟨rest.getD q2 [], ?_, hx2⟩
                rw [List.getD_eq_getElem _ _ hq2]
                exact List.getElem_mem hq2
              exact List.disjoint_left.mp hdisj hx1 this
      | succ q1 =>
          cases k2 with
          | zero =>
              exfalso
              rw [List.getD_cons_zero] at hx2
              rw [List.getD_cons_succ] at hx1
              have hq1 : q1 < rest.length := by simpa using h1
              have : x ∈ rest.flatten := by
                refine List.mem_flatten.mpr ⟨rest.getD q1 [], ?_, hx1⟩
                rw [List.getD_eq_getElem _ _ hq1]
                exact List.getElem_mem hq1
              exact List.disjoint_left.mp hdisj hx2 this
          | succ q2 =>
              rw [List.getD_cons_succ] at hx1 hx2
              have := ih hrest q1 q2 x (by simpa using h1) (by simpa using h2) hx1 hx2
              omega

theorem bucket_unique {s : BCache} (hnd : s.buckets.flatten.Nodup) {k1 k2 x : Nat}
    (h1 : k1 < s.buckets.length) (h2 : k2 < s.buckets.length)
    (hx1 : x ∈ getBkt s k1) (hx2 : x ∈ getBkt s k2) : k1 = k2 :=
  nodup_flatten_bucket_unique s.buckets hnd k1 k2 x h1 h2 hx1 hx2

/-- Each chain of a table with no duplicate across its flattened chains is
itself without duplicates. -/
theorem nodup_getD_of_flatten_nodup :
    ∀ (B : List (List Nat)), B.flatten.Nodup → ∀ k, k < B.length →
      (B.getD k []).Nodup := by
  intro B
  induction B with
  | nil => intro _ k hk; simp at hk
  | cons b rest ih =>
      intro hnd k hk
      rw [List.flatten_cons] at hnd
      obtain ⟨hb, hrest, _⟩ := List.nodup_append.mp hnd
      cases k with
      | zero => exact hb
      | succ q => exact ih hrest q (by simpa using hk)

theorem nodup_getBkt {s : BCache} (hnd : s.buckets.flatten.Nodup) {k : Nat}
    (hk : k < s.buckets.length) : (getBkt s k).Nodup :=
  nodup_getD_of_flatten_nodup s.buckets hnd k hk

theorem getD_not_mem_eraseIdx {l : List Nat} {p : Nat}
    (hnd : l.Nodup) (hp : p < l.length) : l.getD p 0 ∉ l.eraseIdx p := by
  have hperm := perm_getD_cons_eraseIdx l p hp
  exact (List.nodup_cons.mp (hperm.nodup hnd)).1

theorem getBkt_oob {s : BCache} {k : Nat} (h : s.buckets.length ≤ k) :
    getBkt s k = [] := List.getD_eq_default _ _ h

theorem getBkt_stealLink_other {s : BCache} {c p dev blockno k : Nat}
    (hkc : k ≠ c) (hkh : k ≠ bhash s.buckets.length dev blockno) :
    getBkt (stealLink s c p dev blockno) k = getBkt s k := by
  simp only [stealLink]
  rw [getBkt_setBkt_ne _ _ (fun h => hkh h.symm)]
  exact getBkt_setBkt_ne _ _ (fun h => hkc h.symm)

theorem getBkt_stealLink_c {s : BCache} {c p dev blockno : Nat}
    (hc : c < s.buckets.length) (hch : c ≠ bhash s.buckets.length dev blockno) :
    getBkt (stealLink s c p dev blockno) c = (getBkt s c).eraseIdx p := by
  simp only [stealLink]
  rw [getBkt_setBkt_ne _ _ (fun h => hch h.symm)]
  exact getBkt_setBkt_self _ hc

/-- The per-bucket correctness property behind identity uniqueness: along
a chain, any entry sharing the identity of an earlier entry is
unreferenced (equivalently, a referenced slot is the first entry of its
chain carrying its identity). -/
def slotR (s : BCache) (a c2 : Nat) : Prop :=
  idOf (getBuf s a) = idOf (getBuf s c2) → (getBuf s c2).refcnt = 0

/-- Every chain entry sits in the bucket its identity hashes to. -/
def HashOk (s : BCache) : Prop :=
  ∀ k, k < s.buckets.length → ∀ x ∈ getBkt s k,
    bhash s.buckets.length (getBuf s x).dev (getBuf s x).blockno = k

/-- Every bucket chain satisfies the first-match discipline. -/
def FirstOk (s : BCache) : Prop := ∀ k, (getBkt s k).Pairwise (slotR s)

/-- The sequential cache invariant: the chains partition the pool, hash
placement is respected, chains obey the first-match discipline, and the
bucket table is nonempty. -/
def CacheInv (s : BCache) : Prop :=
  MemSlots s ∧ HashOk s ∧ FirstOk s ∧ 0 < s.buckets.length

/-- The first-match discipline survives any slot update that avoids the
chain at hand. -/
theorem slotR_transfer {s s1 : BCache} {l : List Nat} {j : Nat}
    (hjl : j ∉ l)
    (heq : ∀ x, x ≠ j → getBuf s1 x = getBuf s x)
    (hP : l.Pairwise (slotR s)) : l.Pairwise (slotR s1) := by
  refine hP.imp_of_mem ?_
  intro a c2 ha hc2 hR hid
  rw [heq a (fun h => hjl (h ▸ ha)), heq c2 (fun h => hjl (h ▸ hc2))] at hid
  rw [heq c2 (fun h => hjl (h ▸ hc2))]
  exact hR hid

/-- A fast-path hit preserves the cache invariant: the hit entry is the
first chain entry with the looked-up identity, so bumping its reference
count keeps the first-match discipline, and nothing else changes. -/
theorem cacheInv_bget_fast {s : BCache} {dev blockno j : Nat}
    (hinv : CacheInv s)
    (hfm : findMatch s (getBkt s (bhash s.buckets.length dev blockno)) dev blockno = some j) :
    CacheInv (setBuf s j (bumpRef (getBuf s j))) := by
  obtain ⟨hm, hhOk, hfi, hpos⟩ := hinv
  obtain ⟨l1, l2, hsplit, hdev, hblk, hpre⟩ := findMatch_some_split hfm
  have hK := bhash_lt hpos dev blockno
  have hjmem : j ∈ getBkt s (bhash s.buckets.length dev blockno) := by
    rw [hsplit]; simp
  have hj : j < s.bufs.length := wf_of_memSlots hm _ hK j hjmem
  have hnd := flatten_nodup hm
  have hbuf_ne : ∀ x, x ≠ j →
      getBuf (setBuf s j (bumpRef (getBuf s j))) x = getBuf s x :=
    fun x hx => getBuf_setBuf_ne _ _ (Ne.symm hx)
  refine ⟨?_, ?_, ?_, hpos⟩
  · unfold MemSlots
    rw [buckets_setBuf, bufsLen_setBuf]
    exact hm
  · intro k hk x hx
    rw [getBkt_setBuf] at hx
    rw [buckets_setBuf] at hk ⊢
    by_cases hxj : x = j
    · subst hxj
      rw [getBuf_setBuf_self _ hj]
      exact hhOk k hk x hx
    · rw [hbuf_ne x hxj]
      exact hhOk k hk x hx
  · intro k
    rw [getBkt_setBuf]
    by_cases hk : k < s.buckets.length
    · by_cases hkK : k = bhash s.buckets.length dev blockno
      · subst hkK
        have hndb : (l1 ++ j :: l2).Nodup := by
          rw [← hsplit]; exact nodup_getBkt hnd hK
        obtain ⟨hnd1, hnd2, hdisj⟩ := List.nodup_append.mp hndb
        have hjl1 : j ∉ l1 :=
          fun hmem => (List.disjoint_left.mp hdisj hmem) (List.mem_cons_self j l2)
        have hjl2 : j ∉ l2 := (List.nodup_cons.mp hnd2).1
        have hold : (l1 ++ j :: l2).Pairwise (slotR s) := by
          rw [← hsplit]; exact hfi _
        obtain ⟨hP1, hP2, hcross⟩ := List.pairwise_append.mp hold
        obtain ⟨hhead, hPl2⟩ := List.pairwise_cons.mp hP2
        rw [hsplit]
        refine List.pairwise_append.mpr ⟨?_, ?_, ?_⟩
        · exact slotR_transfer hjl1 hbuf_ne hP1
        · refine List.pairwise_cons.mpr ⟨?_, slotR_transfer hjl2 hbuf_ne hPl2⟩
          intro c2 hc2 hid
          rw [hbuf_ne c2 (fun h => hjl2 (h ▸ hc2))] at hid ⊢
          rw [getBuf_setBuf_self _ hj] at hid
          exact hhead c2 hc2 hid
        · intro a ha c2 hc2 hid
          rcases List.mem_cons.mp hc2 with hc2e | hc2m
          · exfalso
            subst hc2e
            rw [hbuf_ne a (fun h => hjl1 (h ▸ ha)), getBuf_setBuf_self _ hj] at hid
            refine hpre a ha ⟨?_, ?_⟩
            · have := congrArg Prod.fst hid
              simp only [idOf] at this
              rw [this]
              exact hdev
            · have := congrArg Prod.snd hid
              simp only [idOf] at this
              rw [this]
              exact hblk
          · rw [hbuf_ne a (fun h => hjl1 (h ▸ ha)),
              hbuf_ne c2 (fun h => hjl2 (h ▸ hc2m))] at hid
            rw [hbuf_ne c2 (fun h => hjl2 (h ▸ hc2m))]
            exact hcross a ha c2 (List.mem_cons_of_mem _ hc2m) hid
      · have hjk : j ∉ getBkt s k :=
          fun hmem => hkK (bucket_unique hnd hk hK hmem hjmem)
        exact slotR_transfer hjk hbuf_ne (hfi k)
    · rw [getBkt_oob (by omega)]
      exact List.Pairwise.nil

/-- Under the cache invariant, the duplicate re-scan of a sequential bget
miss never hits: a slot carrying the looked-up identity would sit in the
home bucket by hash placement and would have been found by the fast path
already. -/
theorem rescan_miss_of_inv {s : BCache} {dev blockno c p : Nat}
    (hinv : CacheInv s)
    (hfm : findMatch s (getBkt s (bhash s.buckets.length dev blockno)) dev blockno = none)
    (hb : (scanAll s).2.1 = some (c, p)) :
    findMatch (stealLink s c p dev blockno)
      (getBkt (stealLink s c p dev blockno) (bhash s.buckets.length dev blockno))
      dev blockno = none := by
  obtain ⟨hm, hhOk, _, hpos⟩ := hinv
  obtain ⟨hc, hp, _, _, _⟩ := scanAll_some s hb
  have hpre_all := findMatch_none hfm
  cases hre : findMatch (stealLink s c p dev blockno)
      (getBkt (stealLink s c p dev blockno) (bhash s.buckets.length dev blockno))
      dev blockno with
  | none => rfl
  | some x =>
      exfalso
      obtain ⟨hmem, hdev, hblk⟩ := findMatch_some_mem hre
      rw [getBuf_stealLink] at hdev hblk
      rw [getBkt_stealLink_home s c p dev blockno hpos] at hmem
      rcases List.mem_cons.mp hmem with hxv | hxi
      · have hvm : x ∈ getBkt s c := by rw [hxv]; exact getD_mem hp
        have hxb := hhOk c hc x hvm
        rw [hdev, hblk] at hxb
        refine hpre_all x ?_ ⟨hdev, hblk⟩
        rw [hxb]
        exact hvm
      · rcases mem_getBkt_stealLink_inner hxi with hx2 | hx2
        · have hxb := hhOk c hc x hx2
          rw [hdev, hblk] at hxb
          refine hpre_all x ?_ ⟨hdev, hblk⟩
          rw [hxb]
          exact hx2
        · exact hpre_all x hx2 ⟨hdev, hblk⟩

/-- The reassignment branch of the slow path preserves the cache
invariant: the victim, unlinked from its chain and relinked at the head of
the home bucket, takes the looked-up identity with refcnt 1, and no other
chain entry carries that identity. -/
theorem cacheInv_bget_slow {s : BCache} {dev blockno c p v : Nat} {nb : Buf}
    (hinv : CacheInv s)
    (hfm : findMatch s (getBkt s (bhash s.buckets.length dev blockno)) dev blockno = none)
    (hb : (scanAll s).2.1 = some (c, p))
    (hv_def : v = (getBkt s c).getD p 0)
    (hnb : nb = { getBuf (stealLink s c p dev blockno) v with
      dev := dev, blockno := blockno, valid := false, refcnt := 1, slocked := true }) :
    CacheInv (setBuf (stealLink s c p dev blockno) v nb) := by
  obtain ⟨hm, hhOk, hfi, hpos⟩ := hinv
  obtain ⟨hc, hp, _, _, _⟩ := scanAll_some s hb
  have hnd := flatten_nodup hm
  have hK := bhash_lt hpos dev blockno
  have hvm : v ∈ getBkt s c := by rw [hv_def]; exact getD_mem hp
  have hv : v < s.bufs.length := wf_of_memSlots hm c hc v hvm
  have hndc : (getBkt s c).Nodup := nodup_getBkt hnd hc
  have hvne : v ∉ (getBkt s c).eraseIdx p := by
    rw [hv_def]; exact getD_not_mem_eraseIdx hndc hp
  have hpre_all := findMatch_none hfm
  have hblen : (setBuf (stealLink s c p dev blockno) v nb).buckets.length =
      s.buckets.length := by
    rw [buckets_setBuf]
    exact stealLink_bucketsLen s c p dev blockno
  have hbuf_v : getBuf (setBuf (stealLink s c p dev blockno) v nb) v = nb :=
    getBuf_setBuf_self _ (by rw [stealLink_bufs]; exact hv)
  have hbuf_ne : ∀ x, x ≠ v →
      getBuf (setBuf (stealLink s c p dev blockno) v nb) x = getBuf s x := by
    intro x hx
    rw [getBuf_setBuf_ne _ _ (Ne.symm hx)]
    exact getBuf_stealLink s c p dev blockno x
  have hnbdev : nb.dev = dev := by rw [hnb]
  have hnbblk : nb.blockno = blockno := by rw [hnb]
  have hv_not_home : c ≠ bhash s.buckets.length dev blockno →
      v ∉ getBkt s (bhash s.buckets.length dev blockno) :=
    fun hch hmem => hch (bucket_unique hnd hc hK hvm hmem)
  have hhome : getBkt (stealLink s c p dev blockno) (bhash s.buckets.length dev blockno) =
      v :: getBkt (setBkt s c ((getBkt s c).eraseIdx p))
        (bhash s.buckets.length dev blockno) := by
    rw [getBkt_stealLink_home s c p dev blockno hpos, ← hv_def]
  -- the chain linked behind the victim, in the two shapes it can take
  have hinner_eq : (c = bhash s.buckets.length dev blockno →
      getBkt (setBkt s c ((getBkt s c).eraseIdx p)) (bhash s.buckets.length dev blockno) =
        (getBkt s c).eraseIdx p) ∧
      (c ≠ bhash s.buckets.length dev blockno →
      getBkt (setBkt s c ((getBkt s c).eraseIdx p)) (bhash s.buckets.length dev blockno) =
        getBkt s (bhash s.buckets.length dev blockno)) := by
    constructor
    · intro hch
      rw [← hch]
      exact getBkt_setBkt_self _ hc
    · intro hch
      exact getBkt_setBkt_ne _ _ hch
  have hinner_mem : ∀ x, x ∈ getBkt (setBkt s c ((getBkt s c).eraseIdx p))
      (bhash s.buckets.length dev blockno) →
      x ≠ v ∧ x ∈ getBkt s (bhash s.buckets.length dev blockno) := by
    intro x hx
    by_cases hch : c = bhash s.buckets.length dev blockno
    · rw [hinner_eq.1 hch] at hx
      refine ⟨fun he => hvne (he ▸ hx), ?_⟩
      rw [← hch]
      exact (List.eraseIdx_sublist _ _).subset hx
    · rw [hinner_eq.2 hch] at hx
      exact ⟨fun he => hv_not_home hch (he ▸ hx), hx⟩
  refine ⟨?_, ?_, ?_, by omega⟩
  · have hsteal := @memSlots_stealLink s c p dev blockno hm hc hp
    unfold MemSlots at hsteal ⊢
    rw [buckets_setBuf, bufsLen_setBuf]
    exact hsteal
  · intro k hk x hx
    rw [hblen] at hk ⊢
    rw [getBkt_setBuf] at hx
    by_cases hkh : k = bhash s.buckets.length dev blockno
    · subst hkh
      rw [hhome] at hx
      rcases List.mem_cons.mp hx with hxv | hxi
      · subst hxv
        rw [hbuf_v, hnbdev, hnbblk]
      · obtain ⟨hxnv, hxmem⟩ := hinner_mem x hxi
        rw [hbuf_ne x hxnv]
        exact hhOk _ hK x hxmem
    · by_cases hkc : k = c
      · subst hkc
        rw [getBkt_stealLink_c hc hkh] at hx
        have hxnv : x ≠ v := fun he => hvne (he ▸ hx)
        rw [hbuf_ne x hxnv]
        exact hhOk k hk x ((List.eraseIdx_sublist _ _).subset hx)
      · rw [getBkt_stealLink_other hkc hkh] at hx
        have hxnv : x ≠ v := fun he => hkc (bucket_unique hnd hk hc (he ▸ hx) hvm)
        rw [hbuf_ne x hxnv]
        exact hhOk k hk x hx
  · intro k
    rw [getBkt_setBuf]
    by_cases hk : k < s.buckets.length
    · by_cases hkh : k = bhash s.buckets.length dev blockno
      · subst hkh
        rw [hhome]
        refine List.pairwise_cons.mpr ⟨?_, ?_⟩
        · intro x hx hid
          exfalso
          obtain ⟨hxnv, hxmem⟩ := hinner_mem x hx
          rw [hbuf_v, hbuf_ne x hxnv] at hid
          refine hpre_all x hxmem ⟨?_, ?_⟩
          · have := congrArg Prod.fst hid
            simp only [idOf] at this
            rw [← this, hnbdev]
          · have := congrArg Prod.snd hid
            simp only [idOf] at this
            rw [← this, hnbblk]
        · by_cases hch : c = bhash s.buckets.length dev blockno
          · rw [hinner_eq.1 hch]
            exact slotR_transfer hvne hbuf_ne
              (List.Pairwise.sublist (List.eraseIdx_sublist _ _) (hfi c))
          · rw [hinner_eq.2 hch]
            exact slotR_transfer (hv_not_home hch) hbuf_ne (hfi _)
      · by_cases hkc : k = c
        · subst hkc
          rw [getBkt_stealLink_c hc hkh]
          exact slotR_transfer hvne hbuf_ne
            (List.Pairwise.sublist (List.eraseIdx_sublist _ _) (hfi k))
        · rw [getBkt_stealLink_other hkc hkh]
          refine slotR_transfer ?_ hbuf_ne (hfi k)
          intro hmem
          exact hkc (bucket_unique hnd hk hc hmem hvm)
    · have : getBkt (stealLink s c p dev blockno) k = [] := by
        refine List.getD_eq_default _ _ ?_
        rw [stealLink_bucketsLen]
        omega
      rw [this]
      exact List.Pairwise.nil

/-- A successful bget preserves the cache invariant. -/
theorem cacheInv_bget {s : BCache} {dev blockno : Nat} {s1 : BCache} {i : Nat}
    (hinv : CacheInv s) (h : bget s dev blockno = .ok (s1, i)) : CacheInv s1 := by
  rcases bget_cases h with ⟨j, hfm, _, hs⟩ | ⟨hfm, c, p, hb, hrest⟩
  · subst hs
    exact cacheInv_bget_fast hinv hfm
  · have hre := rescan_miss_of_inv hinv hfm hb
    rcases hrest with ⟨x, hre2, _, _⟩ | ⟨_, _, hs⟩
    · rw [hre] at hre2
      exact Option.noConfusion hre2
    · subst hs
      exact cacheInv_bget_slow hinv hfm hb rfl rfl

/-- The cache invariant entails identity uniqueness among referenced
slots. -/
theorem cacheInv_unique {s : BCache} (hinv : CacheInv s) :
    ∀ i j, (getBuf s i).refcnt ≠ 0 → (getBuf s j).refcnt ≠ 0 →
      idOf (getBuf s i) = idOf (getBuf s j) → i = j := by
  obtain ⟨hm, hhOk, hfi, _⟩ := hinv
  intro i j hi hj hid
  have hi_lt : i < s.bufs.length := by
    by_contra hcon
    rw [getBuf_oob (by omega)] at hi
    exact hi rfl
  have hj_lt : j < s.bufs.length := by
    by_contra hcon
    rw [getBuf_oob (by omega)] at hj
    exact hj rfl
  obtain ⟨li, hli, himem⟩ :=
    List.mem_flatten.mp (hm.mem_iff.mpr (List.mem_range.mpr hi_lt))
  obtain ⟨ki, hki, hkieq⟩ := List.mem_iff_getElem.mp hli
  have himem2 : i ∈ getBkt s ki := by
    unfold getBkt
    rw [List.getD_eq_getElem _ _ hki, hkieq]
    exact himem
  obtain ⟨lj, hlj, hjmem⟩ :=
    List.mem_flatten.mp (hm.mem_iff.mpr (List.mem_range.mpr hj_lt))
  obtain ⟨kj, hkj, hkjeq⟩ := List.mem_iff_getElem.mp hlj
  have hjmem2 : j ∈ getBkt s kj := by
    unfold getBkt
    rw [List.getD_eq_getElem _ _ hkj, hkjeq]
    exact hjmem
  have hbi := hhOk ki hki i himem2
  have hbj := hhOk kj hkj j hjmem2
  have hkk : ki = kj := by
    rw [← hbi, ← hbj]
    have h1 : (getBuf s i).dev = (getBuf s j).dev := by
      have := congrArg Prod.fst hid
      simpa [idOf] using this
    have h2 : (getBuf s i).blockno = (getBuf s j).blockno := by
      have := congrArg Prod.snd hid
      simpa [idOf] using this
    rw [h1, h2]
  subst hkk
  obtain ⟨pi, hpi, hpieq⟩ := List.mem_iff_getElem.mp himem2
  obtain ⟨pj, hpj, hpjeq⟩ := List.mem_iff_getElem.mp hjmem2
  have hpw := List.pairwise_iff_getElem.mp (hfi ki)
  rcases Nat.lt_trichotomy pi pj with hlt | heq | hgt
  · have hR := hpw pi pj hpi hpj hlt
    rw [hpieq, hpjeq] at hR
    exact absurd (hR hid) hj
  · subst heq
    rw [← hpieq, ← hpjeq]
  · have hR := hpw pj pi hpj hpi hgt
    rw [hpjeq, hpieq] at hR
    exact absurd (hR hid.symm) hi

/-- Every pool slot of the freshly initialized cache is the zero slot with
only the timestamp set. -/
theorem getBuf_binit {nbuk nbuf t x : Nat} (hx : x < nbuf) :
    getBuf (binit nbuk nbuf t) x = { timestamp := t } := by
  unfold getBuf binit
  rw [List.getD_eq_getElem _ _ (by rw [List.length_replicate]; exact hx)]
  exact List.getElem_replicate _ _

theorem getD_replicate_nil :
    ∀ (n k : Nat), (List.replicate n ([] : List Nat)).getD k [] = [] := by
  intro n
  induction n with
  | zero => intro k; cases k <;> rfl
  | succ m ih =>
      intro k
      cases k with
      | zero => rfl
      | succ q =>
          rw [List.replicate_succ, List.getD_cons_succ]
          exact ih q

theorem getBkt_binit_succ (nbuk nbuf t k : Nat) :
    getBkt (binit nbuk nbuf t) (k + 1) = [] := by
  unfold getBkt binit
  rw [List.getD_cons_succ]
  exact getD_replicate_nil _ _

/-- The freshly initialized cache satisfies the cache invariant: every
slot carries identity (0, 0), which hashes to bucket 0, the bucket all
slots are chained into, and every reference count is 0. -/
theorem cacheInv_binit (nbuk nbuf t : Nat) (hpos : 0 < nbuk) :
    CacheInv (binit nbuk nbuf t) := by
  have hlen : (binit nbuk nbuf t).buckets.length = nbuk := by
    unfold binit
    simp only [List.length_cons, List.length_replicate]
    omega
  refine ⟨memSlots_binit nbuk nbuf t, ?_, ?_, by omega⟩
  · intro k hk x hx
    cases k with
    | zero =>
        have hxn : x < nbuf := List.mem_range.mp hx
        rw [getBuf_binit hxn]
        show bhash _ 0 0 = 0
        unfold bhash
        simp
    | succ q =>
        rw [getBkt_binit_succ] at hx
        exact absurd hx (by simp)
  · intro k
    cases k with
    | zero =>
        show (List.range nbuf).Pairwise _
        refine List.pairwise_iff_getElem.mpr ?_
        intro a b ha hb hab hid
        have hbn : (List.range nbuf)[b] < nbuf := by
          rw [List.getElem_range]
          rw [List.length_range] at hb
          exact hb
        rw [getBuf_binit hbn]
    | succ q =>
        rw [getBkt_binit_succ]
        exact List.Pairwise.nil

/-- Any successful run of bget calls preserves the cache invariant. -/
theorem runGets_inv :
    ∀ (reqs : List (Nat × Nat)) (s s2 : BCache),
      CacheInv s → runGets s reqs = .ok s2 → CacheInv s2 := by
  intro reqs
  induction reqs with
  | nil =>
      intro s s2 hinv h
      rw [runGets] at h
      injection h with h
      subst h
      exact hinv
  | cons r rest ih =>
      intro s s2 hinv h
      rw [runGets] at h
      cases hg : bget s r.1 r.2 with
      | error e => rw [hg] at h; exact Except.noConfusion h
      | ok pr =>
          rw [hg] at h
          dsimp only [] at h
          exact ih pr.1 s2 (cacheInv_bget hinv (by rw [hg])) h

/-- C5. Identity uniqueness: after any successful sequence of acquire
(bget) calls on the initialized cache, no two distinct slots with
refcnt > 0 carry the same (dev, blockno) identity. (Each prefix of a
successful run is itself a successful run, so this holds at every point
of the sequence; the first-match discipline maintained across the
duplicate re-scan of the slow path is the inductive invariant behind
the proof.) -/
theorem C5_identity_uniqueness (reqs : List (Nat × Nat)) (s : BCache)
    (h : runGets (binit NBUK NBUF 0) reqs = .ok s) :
    ∀ i j, (getBuf s i).refcnt ≠ 0 → (getBuf s j).refcnt ≠ 0 →
      idOf (getBuf s i) = idOf (getBuf s j) → i = j :=
  cacheInv_unique (runGets_inv reqs _ s (cacheInv_binit NBUK NBUF 0 (by decide)) h)

/-- Trace state for the witness of C5: two acquires of block (1, 10). -/
def c5w : BCache := okRel (runGets (binit NBUK NBUF 0) [(1, 10), (1, 10)])

/-- Witness for C5: after acquiring (1, 10) twice, slot 29 is the live
slot for that identity, and the theorem applies to it. -/
theorem C5_identity_uniqueness_witness :
    (getBuf c5w 29).refcnt ≠ 0 ∧ (29 : Nat) = 29 := by
  have h := C5_identity_uniqueness [(1, 10), (1, 10)] c5w (by decide)
  exact ⟨by decide, h 29 29 (by decide) (by decide) rfl⟩

end Bio
